import Mathlib

/-! Point arithmetic, scalar multiplication and point encoding of the NIST prime-order curves.

A shallow embedding of the code template `tmplNISTEC` of
`crypto/internal/nistec/generate.go` (instantiated by the generator for P224, P256, P384
and P521).  The field element type (`fiat.P224Element` and friends) is a collaborator that is
not part of the template: it is taken here as a field `F`, whose `Invert` is the field inverse
(with `Invert 0 = 0`), and the curve coefficient `b` is the parameter `B`.
-/

namespace Nistec

/-! ## Data model -/

/-- One Go `byte` (`uint8`). -/
abbrev Byte := Fin 256

/-- The non-negative integer whose big-endian encoding is the byte string. -/
def bytesToNat (b : List Byte) : Nat := b.foldl (fun acc x => acc * 256 + x.val) 0

/-- The struct `P256Point` (and `P224Point`, `P384Point`, `P521Point`): projective coordinates
`(X:Y:Z)`, with `x = X/Z` and `y = Y/Z`. -/
structure Point (F : Type) where
  x : F
  y : F
  z : F
deriving DecidableEq, Repr

/-- How a call can end without a result: with a Go `error` value, or in a Go panic. -/
inductive Failure where
  | err (msg : String)
  | fatal (msg : String)
deriving DecidableEq, Repr

/-- What a method with a point receiver and results `(*Point, error)` leaves behind: the
coordinates of the receiver after the call and, in `failure`, the error with which the call
returned `nil` (or the panic in which it ended).  With `failure = none` the call has returned
the receiver itself and a `nil` error. -/
structure Returned (F : Type) where
  receiver : Point F
  failure : Option Failure
deriving DecidableEq, Repr

/-- The capabilities of the field element type that the codec uses: its length in bytes
(`p256ElementLength`), and the element methods `Bytes` and `SetBytes` (which returns an error
on an input that is not the canonical encoding of an element). -/
structure ElementCodec (F : Type) where
  ElementLength : Nat
  Bytes : F → List Byte
  SetBytes : List Byte → Option F

variable {F : Type} [Field F]

/-- `NewP256Point`: the point at infinity, `(0, 1, 0)`. -/
def NewPoint : Point F := ⟨0, 1, 0⟩

/-- `Set` copies the three coordinates of `q`. -/
def Point.Set (q : Point F) : Point F := ⟨q.x, q.y, q.z⟩

/-- The field element `Select(a, b, cond)`: `a` if `cond == 1`, and `b` if `cond == 0`. -/
def Element.Select (a b : F) (cond : Nat) : F := if cond = 1 then a else b

/-- `Select` sets `q` to `p1` if `cond == 1`, and to `p2` if `cond == 0`, one coordinate at a
time. -/
def Point.Select (p1 p2 : Point F) (cond : Nat) : Point F :=
  ⟨Element.Select p1.x p2.x cond, Element.Select p1.y p2.y cond, Element.Select p1.z p2.z cond⟩

/-! ## The group law -/

/-- `Add` sets `q = p1 + p2`: the complete addition formula for `a = -3`, one line per line of
the source. -/
def Add (B : F) (p1 p2 : Point F) : Point F :=
  let t0 := p1.x * p2.x
  let t1 := p1.y * p2.y
  let t2 := p1.z * p2.z
  let t3 := p1.x + p1.y
  let t4 := p2.x + p2.y
  let t3 := t3 * t4
  let t4 := t0 + t1
  let t3 := t3 - t4
  let t4 := p1.y + p1.z
  let x3 := p2.y + p2.z
  let t4 := t4 * x3
  let x3 := t1 + t2
  let t4 := t4 - x3
  let x3 := p1.x + p1.z
  let y3 := p2.x + p2.z
  let x3 := x3 * y3
  let y3 := t0 + t2
  let y3 := x3 - y3
  let z3 := B * t2
  let x3 := y3 - z3
  let z3 := x3 + x3
  let x3 := x3 + z3
  let z3 := t1 - x3
  let x3 := t1 + x3
  let y3 := B * y3
  let t1 := t2 + t2
  let t2 := t1 + t2
  let y3 := y3 - t2
  let y3 := y3 - t0
  let t1 := y3 + y3
  let y3 := t1 + y3
  let t1 := t0 + t0
  let t0 := t1 + t0
  let t0 := t0 - t2
  let t1 := t4 * y3
  let t2 := t0 * y3
  let y3 := x3 * z3
  let y3 := y3 + t2
  let x3 := t3 * x3
  let x3 := x3 - t1
  let z3 := t4 * z3
  let t1 := t3 * t0
  let z3 := z3 + t1
  ⟨x3, y3, z3⟩

/-- `Double` sets `q = p + p`: the dedicated doubling formula, one line per line of the
source. -/
def Double (B : F) (p : Point F) : Point F :=
  let t0 := p.x * p.x
  let t1 := p.y * p.y
  let t2 := p.z * p.z
  let t3 := p.x * p.y
  let t3 := t3 + t3
  let z3 := p.x * p.z
  let z3 := z3 + z3
  let y3 := B * t2
  let y3 := y3 - z3
  let x3 := y3 + y3
  let y3 := x3 + y3
  let x3 := t1 - y3
  let y3 := t1 + y3
  let y3 := x3 * y3
  let x3 := x3 * t3
  let t3 := t2 + t2
  let t2 := t2 + t3
  let z3 := B * z3
  let z3 := z3 - t2
  let z3 := z3 - t0
  let t3 := z3 + z3
  let z3 := z3 + t3
  let t3 := t0 + t0
  let t0 := t3 + t0
  let t0 := t0 - t2
  let t0 := t0 * z3
  let y3 := y3 + t0
  let t0 := p.y * p.z
  let t0 := t0 + t0
  let z3 := t0 * z3
  let x3 := x3 - z3
  let z3 := t0 * t1
  let z3 := z3 + z3
  let z3 := z3 + z3
  ⟨x3, y3, z3⟩

/-! ## Tables and scalar multiplication -/

/-- `subtle.ConstantTimeByteEq`: 1 if `x == y` and 0 otherwise. -/
def ConstantTimeByteEq (x y : Nat) : Nat := if x = y then 1 else 0

/-- A `p256Table` holds the first 15 multiples of a point at offset -1; it is an array of 15
points. -/
abbrev Table (F : Type) := Fin 15 → Point F

/-- `Select` selects the `n`-th multiple of the table base point into `p`, going over every
entry of the table: `for i := uint8(1); i < 16; i++`, here with `j = i - 1`.  It panics when
`n >= 16`. -/
def Table.Select (table : Table F) (n : Nat) : Except Failure (Point F) :=
  if n ≥ 16 then
    .error (.fatal "nistec: internal error: table called with out-of-bounds value")
  else
    .ok ((List.finRange 15).foldl
      (fun p j => Point.Select (table j) p (ConstantTimeByteEq (j.val + 1) n))
      (Point.Set NewPoint))

/-- The table of `ScalarMult`: `table[0] = q`, and `for i := 1; i < 15; i += 2` sets
`table[i] = Double(table[i/2])` and `table[i+1] = Add(table[i], q)`; here `i = 2k + 1` for
`k = 0, ..., 6`. -/
def ScalarMult.table (B : F) (q : Point F) : Table F :=
  (List.finRange 7).foldl
    (fun table k =>
      let table := Function.update table ⟨2 * k.val + 1, by omega⟩
        (Double B (table ⟨(2 * k.val + 1) / 2, by omega⟩))
      Function.update table ⟨2 * k.val + 1 + 1, by omega⟩
        (Add B (table ⟨2 * k.val + 1, by omega⟩) q))
    (Function.update (fun _ => NewPoint) 0 (Point.Set q))

/-- Four doublings in a row. -/
def Double4 (B : F) (p : Point F) : Point F := Double B (Double B (Double B (Double B p)))

/-- The loop `for i, byte := range scalar` of `ScalarMult`, with the accumulator `p`. -/
def ScalarMult.loop (B : F) (table : Table F) :
    Nat → List Byte → Point F → Except Failure (Point F)
  | _, [], p => .ok p
  | i, byte :: rest, p => do
    let p := if i ≠ 0 then Double4 B p else p
    let windowValue := byte.val >>> 4
    let t ← table.Select windowValue
    let p := Add B p t
    let p := Double4 B p
    let windowValue := byte.val &&& 0b1111
    let t ← table.Select windowValue
    let p := Add B p t
    ScalarMult.loop B table (i + 1) rest p

/-- `ScalarMult` sets `p = scalar * q` and returns `p`, with a `nil` error. -/
def ScalarMult (B : F) (p q : Point F) (scalar : List Byte) : Returned F :=
  match ScalarMult.loop B (ScalarMult.table B q) 0 scalar (Point.Set NewPoint) with
  | .ok r => ⟨r, none⟩
  | .error f => ⟨p, some f⟩

/-- `SetGenerator` sets `p` to the canonical generator, of affine coordinates `Gx` and `Gy`
(two constants of the curve). -/
def SetGenerator (Gx Gy : F) : Point F := ⟨Gx, Gy, 1⟩

/-- One table of the generator table: `table[0] = base`, and `table[j] = Add(table[j-1], base)`
for `j = 1, ..., 14`; here `j = k + 1`. -/
def generatorTable.row (B : F) (base : Point F) : Table F :=
  (List.finRange 14).foldl
    (fun table k =>
      Function.update table ⟨k.val + 1, by omega⟩ (Add B (table ⟨k.val, by omega⟩) base))
    (Function.update (fun _ => NewPoint) 0 (Point.Set base))

/-- The loop of `generatorTable` over the tables still to build: a table of multiples of
`base`, then `base` is doubled four times. -/
def generatorTable.build (B : F) : Nat → Point F → List (Table F)
  | 0, _ => []
  | n + 1, base => generatorTable.row B base :: generatorTable.build B n (Double4 B base)

/-- `generatorTable` returns a sequence of `ElementLength * 2` tables.  The first table
contains multiples of G.  Each successive table is the previous table doubled four times. -/
def generatorTable (B Gx Gy : F) (ElementLength : Nat) : List (Table F) :=
  generatorTable.build B (ElementLength * 2) (SetGenerator Gx Gy)

/-- Indexing `tables[tableIndex]` with a Go `int`; out of range it panics. -/
def tableAt (tables : List (Table F)) (tableIndex : Int) : Except Failure (Table F) :=
  if 0 ≤ tableIndex then
    match tables.get? tableIndex.toNat with
    | some table => .ok table
    | none => .error (.fatal "index out of range")
  else .error (.fatal "index out of range")

/-- The loop `for _, byte := range scalar` of `ScalarBaseMult`. -/
def ScalarBaseMult.loop (B : F) (tables : List (Table F)) :
    Int → List Byte → Point F → Except Failure (Point F)
  | _, [], p => .ok p
  | tableIndex, byte :: rest, p => do
    let windowValue := byte.val >>> 4
    let t ← (← tableAt tables tableIndex).Select windowValue
    let p := Add B p t
    let tableIndex := tableIndex - 1
    let windowValue := byte.val &&& 0b1111
    let t ← (← tableAt tables tableIndex).Select windowValue
    let p := Add B p t
    let tableIndex := tableIndex - 1
    ScalarBaseMult.loop B tables tableIndex rest p

/-- `ScalarBaseMult` sets `p = scalar * G`, where `G` is the canonical generator, and returns
`p`. -/
def ScalarBaseMult (B Gx Gy : F) (ElementLength : Nat) (p : Point F) (scalar : List Byte) :
    Returned F :=
  if scalar.length ≠ ElementLength then ⟨p, some (.err "invalid scalar length")⟩
  else
    let tables := generatorTable B Gx Gy ElementLength
    match ScalarBaseMult.loop B tables ((tables.length : Int) - 1) scalar
        (Point.Set NewPoint) with
    | .ok r => ⟨r, none⟩
    | .error f => ⟨p, some f⟩

/-! ## The point codec -/

section Codec

variable [DecidableEq F]

/-- The element method `IsZero`: 1 if the element is zero and 0 otherwise. -/
def Element.IsZero (a : F) : Nat := if a = 0 then 1 else 0

/-- The element method `Equal`: 1 if the elements are equal and 0 otherwise. -/
def Element.Equal (a b : F) : Nat := if a = b then 1 else 0

/-- `p256Polynomial` sets `y2` to `x³ - 3x + b`, and returns `y2`. -/
def Polynomial (B x : F) : F :=
  let y2 := x * x
  let y2 := y2 * x
  let threeX := x + x
  let threeX := threeX + x
  let y2 := y2 - threeX
  y2 + B

/-- `p256CheckOnCurve`: the error, if any. -/
def CheckOnCurve (B x y : F) : Option Failure :=
  let rhs := Polynomial B x
  let lhs := y * y
  if Element.Equal rhs lhs ≠ 1 then some (.err "point not on curve") else none

/-- `p256Sqrt` sets `e` to a square root of `x`.  If `x` is not a square, it returns false and
`e` is unchanged.  The result is the value of `e` after the call, and `isSquare`. -/
def Sqrt (SqrtCandidate : F → F) (e x : F) : F × Bool :=
  let candidate := SqrtCandidate x
  let square := candidate * candidate
  if Element.Equal square x ≠ 1 then (e, false) else (candidate, true)

/-- Modelled from the spec: the square root candidate `x ^ ((p + 1) / 4)` for a field of `p`
elements with `p = 3 mod 4`.  The generator computes `exp = (p + 1) / 4` and has the `addchain`
tool emit an addition chain for the exponentiation by it; the chain itself is not part of the
source. -/
def SqrtCandidate (p : Nat) (x : ZMod p) : ZMod p := x ^ ((p + 1) / 4)

/-- The low bit of the last of the `ElementLength` bytes of `y`:
`y.Bytes()[ElementLength-1] & 1`. -/
def lastBit (c : ElementCodec F) (y : F) : Nat :=
  ((c.Bytes y).getD (c.ElementLength - 1) 0).val &&& 1

/-- `SetBytes` sets `p` to the compressed, uncompressed, or infinity value encoded in `b`.  If
the point is not on the curve, it returns nil and an error, and the receiver is unchanged.
Otherwise, it returns `p`. -/
def SetBytes (c : ElementCodec F) (B : F) (SqrtCandidate : F → F) (p : Point F)
    (b : List Byte) : Returned F :=
  if b.length = 1 ∧ b.head? = some 0 then
    ⟨Point.Set NewPoint, none⟩
  else if b.length = 1 + 2 * c.ElementLength ∧ b.head? = some 4 then
    match c.SetBytes ((b.take (1 + c.ElementLength)).drop 1) with
    | none => ⟨p, some (.err "invalid element encoding")⟩
    | some x =>
      match c.SetBytes (b.drop (1 + c.ElementLength)) with
      | none => ⟨p, some (.err "invalid element encoding")⟩
      | some y =>
        match CheckOnCurve B x y with
        | some e => ⟨p, some e⟩
        | none => ⟨⟨x, y, 1⟩, none⟩
  else if b.length = 1 + c.ElementLength ∧ (b.head? = some 2 ∨ b.head? = some 3) then
    match c.SetBytes (b.drop 1) with
    | none => ⟨p, some (.err "invalid element encoding")⟩
    | some x =>
      let y := Polynomial B x
      match Sqrt SqrtCandidate y y with
      | (_, false) => ⟨p, some (.err "invalid compressed point encoding")⟩
      | (y, true) =>
        let otherRoot := (0 : F)
        let otherRoot := otherRoot - y
        let cond := (lastBit c y) ^^^ ((b.headD 0).val &&& 1)
        let y := Element.Select otherRoot y cond
        ⟨⟨x, y, 1⟩, none⟩
  else
    ⟨p, some (.err "invalid point encoding")⟩

/-- `Bytes` returns the uncompressed or infinity encoding of `p`. -/
def Point.Bytes (c : ElementCodec F) (p : Point F) : List Byte :=
  if Element.IsZero p.z = 1 then [0]
  else
    let zinv := p.z⁻¹
    let x := p.x * zinv
    let y := p.y * zinv
    let buf : List Byte := [4]
    let buf := buf ++ c.Bytes x
    buf ++ c.Bytes y

/-- `BytesX` returns the encoding of the x-coordinate of `p`, or an error if `p` is the point
at infinity. -/
def Point.BytesX (c : ElementCodec F) (p : Point F) : Except Failure (List Byte) :=
  if Element.IsZero p.z = 1 then .error (.err "point is the point at infinity")
  else
    let zinv := p.z⁻¹
    let x := p.x * zinv
    .ok (c.Bytes x)

/-- `BytesCompressed` returns the compressed or infinity encoding of `p`. -/
def Point.BytesCompressed (c : ElementCodec F) (p : Point F) : List Byte :=
  if Element.IsZero p.z = 1 then [0]
  else
    let zinv := p.z⁻¹
    let x := p.x * zinv
    let y := p.y * zinv
    let buf : List Byte := [⟨(2 ||| lastBit c y) % 256, Nat.mod_lt _ (by decide)⟩]
    buf ++ c.Bytes x

/-- The tag byte of the compressed encoding, `2 | lsb(y)`, as `BytesCompressed` builds it. -/
def compressedTag (c : ElementCodec F) (y : F) : Byte :=
  ⟨(2 ||| lastBit c y) % 256, Nat.mod_lt _ (by decide)⟩

/-- The laws of the element codec: `Bytes` returns `ElementLength` bytes, and `SetBytes`
reads them back as the same element. -/
structure ElementCodec.Lawful (c : ElementCodec F) : Prop where
  length_Bytes : ∀ x, (c.Bytes x).length = c.ElementLength
  SetBytes_Bytes : ∀ x, c.SetBytes (c.Bytes x) = some x

/-- The parity law of the element codec: a nonzero element and its negation differ in the low
bit of their last byte (the prime of the field is odd). -/
def ElementCodec.OddParity (c : ElementCodec F) : Prop :=
  ∀ y : F, y ≠ 0 → lastBit c (-y) ≠ lastBit c y

/-- Modelled from the spec: the canonical form of `n` in `L` bytes, big-endian, of the element
method `Bytes` (the element type is not part of the source). -/
def natToBytes : Nat → Nat → List Byte
  | 0, _ => []
  | L + 1, n => natToBytes L (n / 256) ++ [⟨n % 256, Nat.mod_lt _ (by decide)⟩]

/-- Modelled from the spec: the element codec of the field with `p` elements, with elements
of `L` bytes: `Bytes` writes the canonical residue in `L` bytes, big-endian, and `SetBytes`
accepts exactly the strings of `L` bytes whose value is below `p` (the element type is not part
of the source). -/
def bigEndianCodec (p L : Nat) : ElementCodec (ZMod p) where
  ElementLength := L
  Bytes x := natToBytes L x.val
  SetBytes b := if b.length = L ∧ bytesToNat b < p then some (bytesToNat b : ZMod p) else none

end Codec

/-! ## Validity -/

/-- The projective curve equation `Y²Z = X³ - 3XZ² + BZ³`. -/
def OnCurve (B : F) (P : Point F) : Prop :=
  P.y ^ 2 * P.z = P.x ^ 3 - 3 * P.x * P.z ^ 2 + B * P.z ^ 3

instance [DecidableEq F] (B : F) (P : Point F) : Decidable (OnCurve B P) := by
  unfold OnCurve; infer_instance

/-- A valid point: it satisfies the projective curve equation and is not the all-zero triple. -/
def IsValid (B : F) (P : Point F) : Prop :=
  OnCurve B P ∧ ¬(P.x = 0 ∧ P.y = 0 ∧ P.z = 0)

instance [DecidableEq F] (B : F) (P : Point F) : Decidable (IsValid B P) := by
  unfold IsValid; infer_instance

/-- The assumption on the curve constants under which the addition formula is complete: the
field does not have characteristic 2 and the curve has no point of order two (no point with
`y = 0`), as holds for every curve of odd, in particular prime, order. -/
structure OddOrder (B : F) : Prop where
  two_ne_zero : (2 : F) ≠ 0
  no_root : ∀ x : F, x ^ 3 - 3 * x + B ≠ 0

/-- Two coordinate triples are the same projective point: neither is the all-zero triple and
their coordinates are proportional. -/
def SamePoint (P Q : Point F) : Prop :=
  ¬(P.x = 0 ∧ P.y = 0 ∧ P.z = 0) ∧ ¬(Q.x = 0 ∧ Q.y = 0 ∧ Q.z = 0) ∧
    P.x * Q.y = P.y * Q.x ∧ P.x * Q.z = P.z * Q.x ∧ P.y * Q.z = P.z * Q.y

instance [DecidableEq F] (P Q : Point F) : Decidable (SamePoint P Q) := by
  unfold SamePoint; infer_instance

/-- The curve `y² = x³ - 3x + B` as a Weierstrass curve of Mathlib, whose nonsingular points
form a commutative group. -/
def curve (B : F) : WeierstrassCurve.Affine F := ⟨0, 0, 0, -3, B⟩

/-- The triple `P` represents the point `a` of the curve group: the point at infinity is
represented by `(0 : Y : 0)` with `Y ≠ 0`, the affine point `(x, y)` by `(xZ : yZ : Z)` with
`Z ≠ 0`. -/
def Represents (B : F) (P : Point F) : (curve B).Point → Prop
  | .zero => P.x = 0 ∧ P.y ≠ 0 ∧ P.z = 0
  | @WeierstrassCurve.Affine.Point.some _ _ _ x y _ => P.z ≠ 0 ∧ P.x = x * P.z ∧ P.y = y * P.z

/-- The `k`-fold sum `Q + ... + Q` under `Add`, starting from the identity `(0, 1, 0)`. -/
def kFold (B : F) (Q : Point F) : Nat → Point F
  | 0 => NewPoint
  | k + 1 => Add B (kFold B Q k) Q

/-! ## The calls made by `ScalarMult` -/

/-- One call of a group operation, as the instrumented run of `ScalarMult` records it. -/
inductive Op where
  | double
  | add
  | select
deriving DecidableEq, Repr

/-- The table of `ScalarMult` as in `ScalarMult.table`, together with the calls of `Double`
and `Add` made to build it, in order. -/
def ScalarMult.tableTraced (B : F) (q : Point F) : Table F × List Op :=
  (List.finRange 7).foldl
    (fun (state : Table F × List Op) k =>
      let table := Function.update state.1 ⟨2 * k.val + 1, by omega⟩
        (Double B (state.1 ⟨(2 * k.val + 1) / 2, by omega⟩))
      let log := state.2 ++ [Op.double]
      let table := Function.update table ⟨2 * k.val + 1 + 1, by omega⟩
        (Add B (table ⟨2 * k.val + 1, by omega⟩) q)
      let log := log ++ [Op.add]
      (table, log))
    (Function.update (fun _ => NewPoint) 0 (Point.Set q), [])

/-- The loop of `ScalarMult` as in `ScalarMult.loop`, together with the calls of `Double`,
`Add` and `Table.Select` made, in order, appended to `log`. -/
def ScalarMult.loopTraced (B : F) (table : Table F) :
    Nat → List Byte → Point F → List Op → Except Failure (Point F × List Op)
  | _, [], p, log => .ok (p, log)
  | i, byte :: rest, p, log => do
    let (p, log) :=
      if i ≠ 0 then (Double4 B p, log ++ [Op.double, Op.double, Op.double, Op.double])
      else (p, log)
    let windowValue := byte.val >>> 4
    let t ← table.Select windowValue
    let log := log ++ [Op.select]
    let p := Add B p t
    let log := log ++ [Op.add]
    let p := Double4 B p
    let log := log ++ [Op.double, Op.double, Op.double, Op.double]
    let windowValue := byte.val &&& 0b1111
    let t ← table.Select windowValue
    let log := log ++ [Op.select]
    let p := Add B p t
    let log := log ++ [Op.add]
    ScalarMult.loopTraced B table (i + 1) rest p log

/-- `ScalarMult` as in the definition `ScalarMult`, together with the calls of `Double`, `Add`
and `Table.Select` made, in order. -/
def ScalarMultTraced (B : F) (p q : Point F) (scalar : List Byte) : Returned F × List Op :=
  let built := ScalarMult.tableTraced B q
  match ScalarMult.loopTraced B built.1 0 scalar (Point.Set NewPoint) built.2 with
  | .ok r => (⟨r.1, none⟩, r.2)
  | .error f => (⟨p, some f⟩, built.2)

/-- The calls that the loop of `ScalarMult` makes on the bytes from index `i` on, `n` bytes in
all, as a function of `i` and `n` alone. -/
def ScalarMult.loopOps : Nat → Nat → List Op
  | _, 0 => []
  | i, n + 1 =>
    (if i ≠ 0 then [Op.double, Op.double, Op.double, Op.double] else []) ++
      [Op.select, Op.add, Op.double, Op.double, Op.double, Op.double, Op.select, Op.add] ++
      ScalarMult.loopOps (i + 1) n

/-- The calls that build the table of `ScalarMult`: seven times `Double` then `Add`. -/
def ScalarMult.tableOps : List Op :=
  [Op.double, Op.add, Op.double, Op.add, Op.double, Op.add, Op.double, Op.add,
    Op.double, Op.add, Op.double, Op.add, Op.double, Op.add]

/-! ## The arguments of `Table.Select` in the scalar multipliers -/

/-- The loop of `ScalarMult` as in `ScalarMult.loop`, together with the window values passed
to `Table.Select`, each logged before the call is made, in order, appended to `log`. -/
def ScalarMult.loopCalls (B : F) (table : Table F) :
    Nat → List Byte → Point F → List Nat → List Nat × Except Failure (Point F)
  | _, [], p, log => (log, .ok p)
  | i, byte :: rest, p, log =>
    let p := if i ≠ 0 then Double4 B p else p
    let windowValue := byte.val >>> 4
    let log := log ++ [windowValue]
    match table.Select windowValue with
    | .error f => (log, .error f)
    | .ok t =>
      let p := Add B p t
      let p := Double4 B p
      let windowValue := byte.val &&& 0b1111
      let log := log ++ [windowValue]
      match table.Select windowValue with
      | .error f => (log, .error f)
      | .ok t =>
        let p := Add B p t
        ScalarMult.loopCalls B table (i + 1) rest p log

/-- The window values that `ScalarMult` passes to `Table.Select`, in order. -/
def ScalarMult.calls (B : F) (q : Point F) (scalar : List Byte) : List Nat :=
  (ScalarMult.loopCalls B (ScalarMult.table B q) 0 scalar (Point.Set NewPoint) []).1

/-- The loop of `ScalarBaseMult` as in `ScalarBaseMult.loop`, together with the table index
used and the window value passed to `Table.Select`, each pair logged before the table is
indexed and the call is made, in order, appended to `log`. -/
def ScalarBaseMult.loopCalls (B : F) (tables : List (Table F)) :
    Int → List Byte → Point F → List (Int × Nat) → List (Int × Nat) × Except Failure (Point F)
  | _, [], p, log => (log, .ok p)
  | tableIndex, byte :: rest, p, log =>
    let windowValue := byte.val >>> 4
    let log := log ++ [(tableIndex, windowValue)]
    match tableAt tables tableIndex with
    | .error f => (log, .error f)
    | .ok table =>
      match table.Select windowValue with
      | .error f => (log, .error f)
      | .ok t =>
        let p := Add B p t
        let tableIndex := tableIndex - 1
        let windowValue := byte.val &&& 0b1111
        let log := log ++ [(tableIndex, windowValue)]
        match tableAt tables tableIndex with
        | .error f => (log, .error f)
        | .ok table =>
          match table.Select windowValue with
          | .error f => (log, .error f)
          | .ok t =>
            let p := Add B p t
            let tableIndex := tableIndex - 1
            ScalarBaseMult.loopCalls B tables tableIndex rest p log

/-- The table indices that `ScalarBaseMult` uses, each with the window value passed to
`Table.Select` on that table, in order; none when the scalar is refused for its length. -/
def ScalarBaseMult.calls (B Gx Gy : F) (ElementLength : Nat) (scalar : List Byte) :
    List (Int × Nat) :=
  if scalar.length ≠ ElementLength then []
  else
    let tables := generatorTable B Gx Gy ElementLength
    (ScalarBaseMult.loopCalls B tables ((tables.length : Int) - 1) scalar
      (Point.Set NewPoint) []).1

/-! ## A small test curve: `y² = x³ - 3x + 1` over the field with 7 elements -/

instance fact_prime_seven : Fact (Nat.Prime 7) := ⟨by norm_num⟩

/-! ## Theorems -/

/-! ### The curve equation -/

theorem curve_equation_iff (B x y : F) :
    (curve B).Equation x y ↔ y ^ 2 = x ^ 3 - 3 * x + B := by
  rw [WeierstrassCurve.Affine.equation_iff]
  simp only [curve]
  constructor <;> intro h <;> linear_combination h

theorem curve_negY (B x y : F) : (curve B).negY x y = -y := by
  simp [WeierstrassCurve.Affine.negY, curve]

theorem OddOrder.y_ne_zero {B : F} (hB : OddOrder B) {x y : F}
    (h : y ^ 2 = x ^ 3 - 3 * x + B) : y ≠ 0 := by
  intro hy
  apply hB.no_root x
  rw [← h, hy]
  ring

theorem OddOrder.nonsingular {B : F} (hB : OddOrder B) {x y : F}
    (h : y ^ 2 = x ^ 3 - 3 * x + B) : (curve B).Nonsingular x y := by
  rw [WeierstrassCurve.Affine.nonsingular_iff]
  refine ⟨(curve_equation_iff B x y).mpr h, Or.inr ?_⟩
  simp only [curve]
  intro hy
  have h2 : 2 * y = 0 := by linear_combination hy
  rcases mul_eq_zero.mp h2 with h0 | h0
  · exact hB.two_ne_zero h0
  · exact hB.y_ne_zero h h0

theorem curve_addX (B x1 x2 L : F) : (curve B).addX x1 x2 L = L ^ 2 - x1 - x2 := by
  simp only [WeierstrassCurve.Affine.addX, curve]
  ring

theorem curve_addY (B x1 x2 y1 L : F) :
    (curve B).addY x1 x2 y1 L = -(L * (L ^ 2 - x1 - x2 - x1) + y1) := by
  simp only [WeierstrassCurve.Affine.addY, WeierstrassCurve.Affine.negY,
    WeierstrassCurve.Affine.negAddY, WeierstrassCurve.Affine.addX, curve]
  ring

theorem curve_ne_negY_self {B : F} (hB : OddOrder B) {x y : F}
    (h : y ^ 2 = x ^ 3 - 3 * x + B) : y ≠ (curve B).negY x y := by
  rw [curve_negY]
  intro hy
  have h2 : 2 * y = 0 := by linear_combination hy
  rcases mul_eq_zero.mp h2 with h0 | h0
  · exact hB.two_ne_zero h0
  · exact hB.y_ne_zero h h0

theorem curve_slope_tangent {B : F} (hB : OddOrder B) {x y : F}
    (h : y ^ 2 = x ^ 3 - 3 * x + B) :
    (curve B).slope x x y y = (3 * x ^ 2 - 3) / (2 * y) := by
  rw [WeierstrassCurve.Affine.slope_of_Y_ne rfl (curve_ne_negY_self hB h), curve_negY]
  simp only [curve]
  congr 1 <;> ring

/-! ### The addition formula on normalised coordinates -/

/-- The addition formula is symmetric in its two arguments. -/
theorem Add_swap (B : F) (P1 P2 : Point F) : Add B P1 P2 = Add B P2 P1 := by
  simp only [Add, Point.mk.injEq]
  refine ⟨?_, ?_, ?_⟩ <;> ring

/-- On the curve the doubling formula is the addition formula on equal arguments. -/
theorem Double_eq_Add_of_onCurve (B : F) (P : Point F) (h : OnCurve B P) :
    Double B P = Add B P P := by
  unfold OnCurve at h
  simp only [Double, Add, Point.mk.injEq]
  refine ⟨?_, ?_, ?_⟩
  · ring
  · ring
  · linear_combination (6 * P.y) * h

/-- The addition formula is homogeneous of degree two in each argument. -/
theorem Add_scale (B x1 y1 z1 x2 y2 z2 : F) :
    Add B ⟨x1 * z1, y1 * z1, z1⟩ ⟨x2 * z2, y2 * z2, z2⟩ =
      ⟨(z1 * z2) ^ 2 * (Add B ⟨x1, y1, 1⟩ ⟨x2, y2, 1⟩).x,
       (z1 * z2) ^ 2 * (Add B ⟨x1, y1, 1⟩ ⟨x2, y2, 1⟩).y,
       (z1 * z2) ^ 2 * (Add B ⟨x1, y1, 1⟩ ⟨x2, y2, 1⟩).z⟩ := by
  simp only [Add, Point.mk.injEq]
  refine ⟨?_, ?_, ?_⟩ <;> ring

/-- Adding a representative `(0 : Y : 0)` of the point at infinity multiplies the other
argument by `Y² * Y₂`. -/
theorem Add_infinity_left (B Y : F) (Q : Point F) :
    Add B ⟨0, Y, 0⟩ Q = ⟨Y ^ 2 * Q.y * Q.x, Y ^ 2 * Q.y * Q.y, Y ^ 2 * Q.y * Q.z⟩ := by
  simp only [Add, Point.mk.injEq]
  refine ⟨?_, ?_, ?_⟩ <;> ring

/-- Chord case, `Z`: the `Z` coordinate is the `y` coordinate of `P₂ - P₁`, up to
`(x₁ - x₂)³`. -/
theorem Add_affine_z (B x1 y1 x2 y2 : F)
    (h1 : y1 ^ 2 = x1 ^ 3 - 3 * x1 + B) (h2 : y2 ^ 2 = x2 ^ 3 - 3 * x2 + B) :
    (Add B ⟨x1, y1, 1⟩ ⟨x2, y2, 1⟩).z =
      (y1 + y2) * ((y1 + y2) ^ 2 - (x1 + x2) * (x1 - x2) ^ 2 - x1 * (x1 - x2) ^ 2)
        + y1 * (x1 - x2) ^ 3 := by
  simp only [Add]
  linear_combination (-y1 - 2 * y2) * h1 + (-2 * y1 - y2) * h2

/-- Chord case, `X`. -/
theorem Add_affine_x (B x1 y1 x2 y2 : F)
    (h1 : y1 ^ 2 = x1 ^ 3 - 3 * x1 + B) (h2 : y2 ^ 2 = x2 ^ 3 - 3 * x2 + B) :
    (Add B ⟨x1, y1, 1⟩ ⟨x2, y2, 1⟩).x * (x1 - x2) ^ 2 =
      ((y1 - y2) ^ 2 - (x1 + x2) * (x1 - x2) ^ 2) * (Add B ⟨x1, y1, 1⟩ ⟨x2, y2, 1⟩).z := by
  simp only [Add]
  linear_combination
    (-3 * x1^2 * x2 * y2 - 3 * x1 * y1 * x2^2 + 3 * x1 * y1 + 3 * x1 * x2^2 * y2
      + 3 * x1 * y2 - y1^2 * y2 + 6 * y1 * x2 + y1 * y2^2 - 3 * y1 * B + 2 * x2^3 * y2
      - 9 * x2 * y2 + y2^3 + 2 * y2 * B) * h1
    + (3 * x1^3 * y1 + x1^3 * y2 + 3 * x1^2 * y1 * x2 - 3 * x1^2 * x2 * y2
      - 3 * x1 * y1 * x2^2 - 12 * x1 * y1 + 3 * x1 * y2 + 3 * y1 * x2 - y1 * y2^2
      + 3 * y1 * B + 3 * x2 * y2 - 2 * y2 * B) * h2

/-- Chord case, `Y`. -/
theorem Add_affine_y (B x1 y1 x2 y2 : F)
    (h1 : y1 ^ 2 = x1 ^ 3 - 3 * x1 + B) (h2 : y2 ^ 2 = x2 ^ 3 - 3 * x2 + B) :
    (Add B ⟨x1, y1, 1⟩ ⟨x2, y2, 1⟩).y * (x1 - x2) ^ 3 =
      -((y1 - y2) * ((y1 - y2) ^ 2 - (x1 + x2) * (x1 - x2) ^ 2 - x1 * (x1 - x2) ^ 2)
        + y1 * (x1 - x2) ^ 3) * (Add B ⟨x1, y1, 1⟩ ⟨x2, y2, 1⟩).z := by
  simp only [Add]
  linear_combination
    (3 * x1^2 * y1 * x2 * y2 + 9 * x1^2 * x2^4 - 18 * x1^2 * x2^2 - 15 * x1^2 * x2 * y2^2
      + 9 * x1^2 + 3 * x1 * y1^2 * x2^2 - 3 * x1 * y1^2 - 6 * x1 * y1 * x2^2 * y2
      - 6 * x1 * x2^5 - 12 * x1 * x2^3 + 15 * x1 * x2^2 * y2^2 + 12 * x1 * x2^2 * B
      + 18 * x1 * x2 + 15 * x1 * y2^2 - 12 * x1 * B + y1^3 * y2 - 6 * y1^2 * x2
      - 2 * y1^2 * y2^2 + 3 * y1^2 * B - 2 * y1 * x2^3 * y2 + 15 * y1 * x2 * y2
      - 5 * y1 * y2 * B + 12 * x2^4 - 2 * x2^3 * y2^2 - 6 * x2^3 * B - 9 * x2 * y2^2
      - 6 * x2 * B + 2 * y2^4 - 2 * y2^2 * B + 3 * B^2) * h1
    + (-9 * x1^5 * x2 + 6 * x1^4 * x2^2 + 3 * x1^4 + 2 * x1^3 * y1 * y2 + 42 * x1^3 * x2
      + 2 * x1^3 * y2^2 + 6 * x1^3 * B + 6 * x1^2 * y1 * x2 * y2 - 27 * x1^2 * x2^2
      - 3 * x1^2 * x2 * y2^2 - 27 * x1^2 * x2 * B - 45 * x1^2 - 3 * x1 * y1 * x2^2 * y2
      - 15 * x1 * y1 * y2 + 15 * x1 * x2^2 * B + 27 * x1 * x2 + 21 * x1 * B - y1 * y2^3
      + 5 * y1 * y2 * B - 9 * x2^2 + 3 * x2 * y2^2 - 3 * x2 * B - y2^2 * B - 3 * B^2) * h2

/-- Tangent case, `Z`. -/
theorem Add_affine_self_z (B x1 y1 : F) (h1 : y1 ^ 2 = x1 ^ 3 - 3 * x1 + B) :
    (Add B ⟨x1, y1, 1⟩ ⟨x1, y1, 1⟩).z = 8 * y1 ^ 3 := by
  simp only [Add]
  linear_combination (-6 * y1) * h1

/-- Tangent case, `X`. -/
theorem Add_affine_self_x (B x1 y1 : F) (h1 : y1 ^ 2 = x1 ^ 3 - 3 * x1 + B) :
    (Add B ⟨x1, y1, 1⟩ ⟨x1, y1, 1⟩).x * (2 * y1) ^ 2 =
      ((3 * x1 ^ 2 - 3) ^ 2 - 2 * x1 * (2 * y1) ^ 2) * (Add B ⟨x1, y1, 1⟩ ⟨x1, y1, 1⟩).z := by
  simp only [Add]
  linear_combination
    (54 * x1^4 * y1 - 108 * x1^2 * y1 + 24 * x1 * y1^3 + 54 * y1) * h1

/-- Tangent case, `Y`. -/
theorem Add_affine_self_y (B x1 y1 : F) (h1 : y1 ^ 2 = x1 ^ 3 - 3 * x1 + B) :
    (Add B ⟨x1, y1, 1⟩ ⟨x1, y1, 1⟩).y * (2 * y1) ^ 3 =
      -((3 * x1 ^ 2 - 3) * ((3 * x1 ^ 2 - 3) ^ 2 - 2 * x1 * (2 * y1) ^ 2 - x1 * (2 * y1) ^ 2)
        + y1 * (2 * y1) ^ 3) * (Add B ⟨x1, y1, 1⟩ ⟨x1, y1, 1⟩).z := by
  simp only [Add]
  linear_combination
    (-162 * x1^6 * y1 + 486 * x1^4 * y1 - 486 * x1^2 * y1 - 144 * x1 * y1^3 + 24 * y1^5
      + 72 * y1^3 * B + 162 * y1) * h1

/-- Opposite points: the `X` and `Z` coordinates vanish, and `Y` is the `y` coordinate of
`2 P₁`, up to `(2 y₁)³`. -/
theorem Add_affine_neg (B x1 y1 : F) (h1 : y1 ^ 2 = x1 ^ 3 - 3 * x1 + B) :
    Add B ⟨x1, y1, 1⟩ ⟨x1, -y1, 1⟩ =
      ⟨0, -((3 * x1 ^ 2 - 3) * ((3 * x1 ^ 2 - 3) ^ 2 - 2 * x1 * (2 * y1) ^ 2
        - x1 * (2 * y1) ^ 2) + y1 * (2 * y1) ^ 3), 0⟩ := by
  simp only [Add, Point.mk.injEq]
  refine ⟨?_, ?_, ?_⟩
  · ring
  · linear_combination (-27 * x1^3 + 9 * x1 + 9 * y1^2 + 9 * B) * h1
  · ring

/-! ### Representatives of the points of the curve group -/

open WeierstrassCurve.Affine in
/-- The `y` coordinate of a sum of two affine points that is not the point at infinity does
not vanish, the curve having no point of order two. -/
theorem OddOrder.addY_ne_zero {B : F} (hB : OddOrder B) {x1 y1 x2 y2 : F}
    (h1 : (curve B).Equation x1 y1) (h2 : (curve B).Equation x2 y2)
    (hxy : x1 = x2 → y1 ≠ (curve B).negY x2 y2) :
    (curve B).addY x1 x2 y1 ((curve B).slope x1 x2 y1 y2) ≠ 0 :=
  hB.y_ne_zero ((curve_equation_iff B _ _).mp (equation_add h1 h2 hxy))

theorem Represents.scale {B : F} {Q : Point F} {b : (curve B).Point} (hQ : Represents B Q b)
    {c : F} (hc : c ≠ 0) : Represents B ⟨c * Q.x, c * Q.y, c * Q.z⟩ b := by
  cases b with
  | zero =>
    obtain ⟨hx, hy, hz⟩ := hQ
    exact ⟨by simp [hx], mul_ne_zero hc hy, by simp [hz]⟩
  | @some x y h =>
    obtain ⟨hz, hx, hy⟩ := hQ
    refine ⟨mul_ne_zero hc hz, ?_, ?_⟩
    · show c * Q.x = x * (c * Q.z)
      rw [hx]; ring
    · show c * Q.y = y * (c * Q.z)
      rw [hy]; ring

theorem Represents.coord_y_ne_zero {B : F} (hB : OddOrder B) {Q : Point F} {b : (curve B).Point}
    (hQ : Represents B Q b) : Q.y ≠ 0 := by
  cases b with
  | zero => exact hQ.2.1
  | @some x y h =>
    obtain ⟨hz, -, hy⟩ := hQ
    rw [hy]
    exact mul_ne_zero (hB.y_ne_zero ((curve_equation_iff B x y).mp h.1)) hz

theorem Represents.infinity_add {B : F} (hB : OddOrder B) {P Q : Point F} {b : (curve B).Point}
    (hP : Represents B P 0) (hQ : Represents B Q b) : Represents B (Add B P Q) b := by
  obtain ⟨px, py, pz⟩ := P
  obtain ⟨hx, hy, hz⟩ := hP
  simp only at hx hy hz
  subst hx hz
  rw [Add_infinity_left]
  exact hQ.scale (mul_ne_zero (pow_ne_zero 2 hy) (hQ.coord_y_ne_zero hB))

open WeierstrassCurve.Affine in
/-- Two affine points with sum the point at infinity. -/
theorem Represents.add_some_neg {B : F} (hB : OddOrder B) {x1 y1 z1 z2 : F}
    (h1 : y1 ^ 2 = x1 ^ 3 - 3 * x1 + B) (hz1 : z1 ≠ 0) (hz2 : z2 ≠ 0) :
    Represents B (Add B ⟨x1 * z1, y1 * z1, z1⟩ ⟨x1 * z2, -y1 * z2, z2⟩) 0 := by
  have hy : y1 ≠ 0 := hB.y_ne_zero h1
  have h2y : 2 * y1 ≠ 0 := mul_ne_zero hB.two_ne_zero hy
  have hE : (curve B).Equation x1 y1 := (curve_equation_iff B x1 y1).mpr h1
  have hne : y1 ≠ (curve B).negY x1 y1 := curve_ne_negY_self hB h1
  have h4 := hB.addY_ne_zero hE hE (fun _ => hne)
  rw [curve_slope_tangent hB h1, curve_addY] at h4
  rw [Add_scale, Add_affine_neg B x1 y1 h1]
  refine ⟨by simp, ?_, by simp⟩
  show (z1 * z2) ^ 2 * _ ≠ 0
  refine mul_ne_zero (pow_ne_zero 2 (mul_ne_zero hz1 hz2)) ?_
  intro h0
  apply h4
  field_simp
  linear_combination h0

open WeierstrassCurve.Affine in
/-- The tangent case: the sum of an affine point with itself. -/
theorem Represents.add_some_self {B : F} (hB : OddOrder B) {x1 y1 z1 z2 : F}
    (h1 : y1 ^ 2 = x1 ^ 3 - 3 * x1 + B) (hz1 : z1 ≠ 0) (hz2 : z2 ≠ 0)
    (hns : (curve B).Nonsingular ((curve B).addX x1 x1 ((curve B).slope x1 x1 y1 y1))
      ((curve B).addY x1 x1 y1 ((curve B).slope x1 x1 y1 y1))) :
    Represents B (Add B ⟨x1 * z1, y1 * z1, z1⟩ ⟨x1 * z2, y1 * z2, z2⟩) (Point.some hns) := by
  have hy : y1 ≠ 0 := hB.y_ne_zero h1
  have h2 : (2 : F) ≠ 0 := hB.two_ne_zero
  have hz : z1 * z2 ≠ 0 := mul_ne_zero hz1 hz2
  have hZ := Add_affine_self_z B x1 y1 h1
  have hX := Add_affine_self_x B x1 y1 h1
  have hY := Add_affine_self_y B x1 y1 h1
  rw [Add_scale]
  show _ ≠ 0 ∧ _ = _ * _ ∧ _ = _ * _
  simp only [curve_slope_tangent hB h1, curve_addX, curve_addY]
  rw [hZ] at hX hY ⊢
  refine ⟨?_, ?_, ?_⟩
  · have h8 : (8 : F) ≠ 0 := by
      have : (8 : F) = 2 ^ 3 := by norm_num
      rw [this]
      exact pow_ne_zero 3 h2
    exact mul_ne_zero (pow_ne_zero 2 hz) (mul_ne_zero h8 (pow_ne_zero 3 hy))
  · field_simp
    linear_combination (z1 * z2) ^ 2 * hX
  · field_simp
    linear_combination (z1 * z2) ^ 2 * hY

open WeierstrassCurve.Affine in
/-- The chord case: the sum of two affine points with different `x` coordinates. -/
theorem Represents.add_some_chord {B : F} (hB : OddOrder B) {x1 y1 x2 y2 z1 z2 : F}
    (h1 : y1 ^ 2 = x1 ^ 3 - 3 * x1 + B) (h2 : y2 ^ 2 = x2 ^ 3 - 3 * x2 + B)
    (hz1 : z1 ≠ 0) (hz2 : z2 ≠ 0) (hx : x1 ≠ x2)
    (hns : (curve B).Nonsingular ((curve B).addX x1 x2 ((curve B).slope x1 x2 y1 y2))
      ((curve B).addY x1 x2 y1 ((curve B).slope x1 x2 y1 y2))) :
    Represents B (Add B ⟨x1 * z1, y1 * z1, z1⟩ ⟨x2 * z2, y2 * z2, z2⟩) (Point.some hns) := by
  have hd : x1 - x2 ≠ 0 := sub_ne_zero.mpr hx
  have hz : z1 * z2 ≠ 0 := mul_ne_zero hz1 hz2
  have hZ := Add_affine_z B x1 y1 x2 y2 h1 h2
  have hX := Add_affine_x B x1 y1 x2 y2 h1 h2
  have hY := Add_affine_y B x1 y1 x2 y2 h1 h2
  have hE1 : (curve B).Equation x1 y1 := (curve_equation_iff B x1 y1).mpr h1
  have hE2 : (curve B).Equation x2 (-y2) :=
    (curve_equation_iff B x2 (-y2)).mpr (by rw [← h2]; ring)
  have h4 := hB.addY_ne_zero hE1 hE2 (fun h => absurd h hx)
  rw [slope_of_X_ne hx, curve_addY] at h4
  have hZne : (Add B ⟨x1, y1, 1⟩ ⟨x2, y2, 1⟩).z ≠ 0 := by
    intro h0
    apply h4
    rw [hZ] at h0
    field_simp
    linear_combination -h0
  rw [Add_scale]
  show _ ≠ 0 ∧ _ = _ * _ ∧ _ = _ * _
  simp only [slope_of_X_ne hx, curve_addX, curve_addY]
  refine ⟨mul_ne_zero (pow_ne_zero 2 hz) hZne, ?_, ?_⟩
  · field_simp
    linear_combination (z1 * z2) ^ 2 * hX
  · field_simp
    linear_combination (z1 * z2) ^ 2 * hY

open WeierstrassCurve.Affine in
/-- The addition formula computes the group law of the curve on representatives; this is its
completeness. -/
theorem Represents.add {B : F} (hB : OddOrder B) {P Q : Point F} {a b : (curve B).Point}
    (hP : Represents B P a) (hQ : Represents B Q b) : Represents B (Add B P Q) (a + b) := by
  cases a with
  | zero =>
    rw [Point.zero_def, zero_add]
    exact Represents.infinity_add hB hP hQ
  | @some x1 y1 hn1 =>
    cases b with
    | zero =>
      rw [Point.zero_def, add_zero, Add_swap]
      exact Represents.infinity_add hB hQ hP
    | @some x2 y2 hn2 =>
      obtain ⟨px, py, pz⟩ := P
      obtain ⟨qx, qy, qz⟩ := Q
      obtain ⟨hz1, hpx, hpy⟩ := hP
      obtain ⟨hz2, hqx, hqy⟩ := hQ
      simp only at hz1 hpx hpy hz2 hqx hqy
      subst hpx hpy hqx hqy
      have h1 := (curve_equation_iff B x1 y1).mp hn1.1
      have h2 := (curve_equation_iff B x2 y2).mp hn2.1
      by_cases hxy : x1 = x2 ∧ y1 = (curve B).negY x2 y2
      · rw [Point.add_of_Y_eq hxy.1 hxy.2]
        obtain ⟨hx, hy⟩ := hxy
        rw [curve_negY] at hy
        subst hx
        have hy2 : y2 = -y1 := by rw [hy]; ring
        subst hy2
        exact Represents.add_some_neg hB h1 hz1 hz2
      · have himp : x1 = x2 → y1 ≠ (curve B).negY x2 y2 := fun hx hy => hxy ⟨hx, hy⟩
        rw [Point.add_of_imp himp]
        by_cases hx : x1 = x2
        · have hy : y1 = y2 := Y_eq_of_Y_ne hn1.1 hn2.1 hx (himp hx)
          subst hx hy
          exact Represents.add_some_self hB h1 hz1 hz2 _
        · exact Represents.add_some_chord hB h1 h2 hz1 hz2 hx _

/-! ### Selection from a table -/

theorem Point.Set_eq (q : Point F) : Point.Set q = q := rfl

theorem Point.Select_cond_one (p1 p2 : Point F) : Point.Select p1 p2 1 = p1 := rfl

theorem Point.Select_cond_zero (p1 p2 : Point F) : Point.Select p1 p2 0 = p2 := rfl

theorem finRange_fifteen :
    List.finRange 15 = [0, 1, 2, 3, 4, 5, 6, 7, 8, 9, 10, 11, 12, 13, 14] := by
  decide

theorem Table.Select_zero (table : Table F) : table.Select 0 = .ok NewPoint := by
  simp [Table.Select, finRange_fifteen, ConstantTimeByteEq, Point.Select_cond_zero, Point.Set_eq]

theorem Table.Select_succ (table : Table F) (j : Fin 15) :
    table.Select (j.val + 1) = .ok (table j) := by
  have hj : ¬ (j.val + 1 ≥ 16) := by omega
  simp only [Table.Select, hj, if_false, finRange_fifteen, List.foldl, Point.Set_eq]
  fin_cases j <;> simp [ConstantTimeByteEq, Point.Select_cond_zero, Point.Select_cond_one]

theorem Table.Select_fatal (table : Table F) (n : Nat) (hn : 16 ≤ n) :
    ∃ msg, table.Select n = .error (.fatal msg) := by
  simp [Table.Select, hn]

/-! ### The tables of multiples -/

/-- A loop over `0, ..., n-1` establishes an invariant indexed by the number of rounds. -/
theorem foldl_finRange_inv {α : Type} (Inv : Nat → α → Prop) :
    ∀ (n : Nat) (f : α → Fin n → α) (init : α), Inv 0 init →
      (∀ (k : Fin n) (t : α), Inv k.val t → Inv (k.val + 1) (f t k)) →
      Inv n ((List.finRange n).foldl f init)
  | 0, _, _, h0, _ => by simpa using h0
  | n + 1, f, init, h0, hstep => by
    rw [List.finRange_succ_last, List.foldl_append, List.foldl_map]
    simp only [List.foldl]
    exact hstep (Fin.last n) _
      (foldl_finRange_inv Inv n (fun a i => f a i.castSucc) init h0
        (fun k t h => hstep k.castSucc t h))

/-- The table of `ScalarMult`, entry by entry. -/
theorem ScalarMult.table_spec (B : F) (q : Point F) :
    ScalarMult.table B q 0 = q ∧
      ∀ k : Fin 7,
        ScalarMult.table B q ⟨2 * k.val + 1, by omega⟩ =
            Double B (ScalarMult.table B q ⟨k.val, by omega⟩) ∧
          ScalarMult.table B q ⟨2 * k.val + 2, by omega⟩ =
            Add B (ScalarMult.table B q ⟨2 * k.val + 1, by omega⟩) q := by
  have key := foldl_finRange_inv
    (fun (m : Nat) (t : Table F) => t 0 = q ∧
      ∀ k : Fin 7, k.val < m →
        t ⟨2 * k.val + 1, by omega⟩ = Double B (t ⟨k.val, by omega⟩) ∧
          t ⟨2 * k.val + 2, by omega⟩ = Add B (t ⟨2 * k.val + 1, by omega⟩) q)
    7
    (fun table k =>
      let table := Function.update table ⟨2 * k.val + 1, by omega⟩
        (Double B (table ⟨(2 * k.val + 1) / 2, by omega⟩))
      Function.update table ⟨2 * k.val + 1 + 1, by omega⟩
        (Add B (table ⟨2 * k.val + 1, by omega⟩) q))
    (Function.update (fun _ => NewPoint) 0 (Point.Set q))
    ⟨by simp [Point.Set_eq], fun k hk => absurd hk (Nat.not_lt_zero _)⟩
    (by
      intro k t ⟨h0, hk⟩
      have hdiv : (2 * k.val + 1) / 2 = k.val := by omega
      have upd : ∀ (j : Fin 15), j.val < 2 * k.val + 1 →
          Function.update (Function.update t ⟨2 * k.val + 1, by omega⟩
            (Double B (t ⟨(2 * k.val + 1) / 2, by omega⟩))) ⟨2 * k.val + 1 + 1, by omega⟩
            (Add B (Function.update t ⟨2 * k.val + 1, by omega⟩
              (Double B (t ⟨(2 * k.val + 1) / 2, by omega⟩)) ⟨2 * k.val + 1, by omega⟩) q) j
            = t j := by
        intro j hj
        rw [Function.update_noteq (by intro h; rw [h] at hj; simp at hj),
          Function.update_noteq (by intro h; rw [h] at hj; simp at hj)]
      refine ⟨?_, ?_⟩
      · dsimp only
        rw [← h0]
        exact upd 0 (by simp)
      · intro k2 hk2
        dsimp only
        rcases Nat.lt_succ_iff_lt_or_eq.mp hk2 with hlt | heq
        · rw [upd ⟨2 * k2.val + 1, by omega⟩ (by simp; omega),
            upd ⟨k2.val, by omega⟩ (by simp; omega),
            upd ⟨2 * k2.val + 2, by omega⟩ (by simp; omega)]
          exact hk k2 hlt
        · have hk2k : k2 = k := Fin.ext heq
          subst hk2k
          rw [upd ⟨k2.val, by omega⟩ (by simp; omega)]
          have hne : (⟨2 * k2.val + 1, by omega⟩ : Fin 15) ≠ ⟨2 * k2.val + 1 + 1, by omega⟩ := by
            simp [Fin.ext_iff]
          refine ⟨?_, ?_⟩
          · rw [Function.update_noteq hne, Function.update_same]
            simp only [hdiv]
          · rw [Function.update_same, Function.update_noteq hne, Function.update_same])
  exact ⟨key.1, fun k => key.2 k k.isLt⟩

/-- One table of the generator table, entry by entry. -/
theorem generatorTable.row_spec (B : F) (base : Point F) :
    generatorTable.row B base 0 = base ∧
      ∀ k : Fin 14,
        generatorTable.row B base ⟨k.val + 1, by omega⟩ =
          Add B (generatorTable.row B base ⟨k.val, by omega⟩) base := by
  have key := foldl_finRange_inv
    (fun (m : Nat) (t : Table F) => t 0 = base ∧
      ∀ k : Fin 14, k.val < m →
        t ⟨k.val + 1, by omega⟩ = Add B (t ⟨k.val, by omega⟩) base)
    14
    (fun table k =>
      Function.update table ⟨k.val + 1, by omega⟩ (Add B (table ⟨k.val, by omega⟩) base))
    (Function.update (fun _ => NewPoint) 0 (Point.Set base))
    ⟨by simp [Point.Set_eq], fun k hk => absurd hk (Nat.not_lt_zero _)⟩
    (by
      intro k t ⟨h0, hk⟩
      have upd : ∀ (j : Fin 15), j.val < k.val + 1 →
          Function.update t ⟨k.val + 1, by omega⟩ (Add B (t ⟨k.val, by omega⟩) base) j
            = t j := by
        intro j hj
        rw [Function.update_noteq (by intro h; rw [h] at hj; simp at hj)]
      refine ⟨?_, ?_⟩
      · dsimp only
        rw [← h0]
        exact upd 0 (by simp)
      · intro k2 hk2
        dsimp only
        rcases Nat.lt_succ_iff_lt_or_eq.mp hk2 with hlt | heq
        · rw [upd ⟨k2.val + 1, by omega⟩ (by simp; omega),
            upd ⟨k2.val, by omega⟩ (by simp; omega)]
          exact hk k2 hlt
        · have hk2k : k2 = k := Fin.ext heq
          subst hk2k
          rw [upd ⟨k2.val, by omega⟩ (by simp), Function.update_same])
  exact ⟨key.1, fun k => key.2 k k.isLt⟩

/-! ### Validity and representatives -/

theorem Represents.newPoint (B : F) : Represents B NewPoint 0 :=
  ⟨rfl, one_ne_zero, rfl⟩

theorem Represents.onCurve {B : F} {P : Point F} {a : (curve B).Point}
    (h : Represents B P a) : OnCurve B P := by
  cases a with
  | zero =>
    obtain ⟨hx, -, hz⟩ := h
    simp [OnCurve, hx, hz]
  | @some x y hn =>
    obtain ⟨-, hx, hy⟩ := h
    have he := (curve_equation_iff B x y).mp hn.1
    unfold OnCurve
    rw [hx, hy]
    linear_combination P.z ^ 3 * he

theorem Represents.isValid {B : F} {P : Point F} {a : (curve B).Point}
    (h : Represents B P a) : IsValid B P := by
  refine ⟨h.onCurve, ?_⟩
  rintro ⟨-, hy, hz⟩
  cases a with
  | zero => exact h.2.1 hy
  | @some x y hn => exact h.1 hz

theorem IsValid.exists_represents {B : F} (hB : OddOrder B) {P : Point F}
    (h : IsValid B P) : ∃ a, Represents B P a := by
  obtain ⟨he, hne⟩ := h
  unfold OnCurve at he
  by_cases hz : P.z = 0
  · have hx : P.x = 0 := by
      have : P.x ^ 3 = 0 := by
        rw [hz] at he
        linear_combination -he
      exact pow_eq_zero_iff (by norm_num) |>.mp this
    refine ⟨0, hx, ?_, hz⟩
    intro hy
    exact hne ⟨hx, hy, hz⟩
  · have hq : (P.y / P.z) ^ 2 = (P.x / P.z) ^ 3 - 3 * (P.x / P.z) + B := by
      field_simp
      linear_combination P.z ^ 3 * he
    refine ⟨.some (hB.nonsingular hq), hz, ?_, ?_⟩
    · show P.x = P.x / P.z * P.z
      field_simp
    · show P.y = P.y / P.z * P.z
      field_simp

theorem Represents.samePoint {B : F} {P Q : Point F} {a : (curve B).Point}
    (hP : Represents B P a) (hQ : Represents B Q a) : SamePoint P Q := by
  refine ⟨hP.isValid.2, hQ.isValid.2, ?_⟩
  cases a with
  | zero =>
    obtain ⟨hx, -, hz⟩ := hP
    obtain ⟨hx2, -, hz2⟩ := hQ
    simp [hx, hz, hx2, hz2]
  | @some x y hn =>
    obtain ⟨-, hx, hy⟩ := hP
    obtain ⟨-, hx2, hy2⟩ := hQ
    rw [hx, hy, hx2, hy2]
    refine ⟨?_, ?_, ?_⟩ <;> ring

theorem Represents.double {B : F} (hB : OddOrder B) {P : Point F} {a : (curve B).Point}
    (hP : Represents B P a) : Represents B (Double B P) (2 • a) := by
  rw [Double_eq_Add_of_onCurve B P hP.onCurve, two_nsmul]
  exact hP.add hB hP

theorem Represents.double4 {B : F} (hB : OddOrder B) {P : Point F} {a : (curve B).Point}
    (hP : Represents B P a) : Represents B (Double4 B P) (16 • a) := by
  have h := (((hP.double hB).double hB).double hB).double hB
  rw [← mul_nsmul, ← mul_nsmul, ← mul_nsmul] at h
  exact h

/-! ### Scalar multiplication -/

/-- The big-endian value of a byte string. -/
theorem bytesToNat_cons_aux (s : List Byte) (m : Nat) :
    s.foldl (fun acc b => acc * 256 + b.val) m = m * 256 ^ s.length + bytesToNat s := by
  induction s generalizing m with
  | nil => simp [bytesToNat]
  | cons b rest ih =>
    simp only [List.foldl, bytesToNat, List.length_cons]
    rw [ih, ih (0 * 256 + b.val)]
    ring

theorem window_values (b : Byte) :
    b.val >>> 4 = b.val / 16 ∧ b.val &&& 0b1111 = b.val % 16 :=
  ⟨Nat.shiftRight_eq_div_pow b.val 4, Nat.and_pow_two_sub_one_eq_mod b.val 4⟩

theorem ScalarMult.table_represents {B : F} (hB : OddOrder B) {q : Point F}
    {a : (curve B).Point} (hq : Represents B q a) :
    ∀ j : Fin 15, Represents B (ScalarMult.table B q j) ((j.val + 1) • a) := by
  obtain ⟨h0, hk⟩ := ScalarMult.table_spec B q
  have main : ∀ n : Nat, ∀ j : Fin 15, j.val = n →
      Represents B (ScalarMult.table B q j) ((j.val + 1) • a) := by
    intro n
    induction n using Nat.strong_induction_on with
    | _ n ih =>
      intro j hj
      rcases Nat.even_or_odd' n with ⟨m, hm | hm⟩
      · rcases Nat.eq_zero_or_pos m with hm0 | hmpos
        · have : j = 0 := Fin.ext (by simp; omega)
          subst this
          rw [h0]
          simpa using hq
        · have hlt : m - 1 < 7 := by omega
          have hj2 : j = ⟨2 * (⟨m - 1, hlt⟩ : Fin 7).val + 2, by simp; omega⟩ :=
            Fin.ext (by simp; omega)
          rw [hj2, (hk ⟨m - 1, hlt⟩).2]
          have h1 := ih (2 * (m - 1) + 1) (by omega) ⟨2 * (m - 1) + 1, by omega⟩ rfl
          have h2 := h1.add hB hq
          rw [← succ_nsmul] at h2
          exact h2
      · have hlt : m < 7 := by omega
        have hj2 : j = ⟨2 * (⟨m, hlt⟩ : Fin 7).val + 1, by simp; omega⟩ :=
          Fin.ext (by simp; omega)
        rw [hj2, (hk ⟨m, hlt⟩).1]
        have h1 := ih m (by omega) ⟨m, by omega⟩ rfl
        have h2 := h1.double hB
        rw [← mul_nsmul] at h2
        have : (2 * m + 1 + 1) = (m + 1) * 2 := by ring
        simp only [this]
        exact h2
  exact fun j => main j.val j rfl

theorem generatorTable.row_represents {B : F} (hB : OddOrder B) {base : Point F}
    {a : (curve B).Point} (hq : Represents B base a) :
    ∀ j : Fin 15, Represents B (generatorTable.row B base j) ((j.val + 1) • a) := by
  obtain ⟨h0, hk⟩ := generatorTable.row_spec B base
  have main : ∀ n : Nat, ∀ j : Fin 15, j.val = n →
      Represents B (generatorTable.row B base j) ((j.val + 1) • a) := by
    intro n
    induction n with
    | zero =>
      intro j hj
      have : j = 0 := Fin.ext (by simp; omega)
      subst this
      rw [h0]
      simpa using hq
    | succ n ih =>
      intro j hj
      have hlt : n < 14 := by omega
      have hj2 : j = ⟨(⟨n, hlt⟩ : Fin 14).val + 1, by simp; omega⟩ := Fin.ext (by simp; omega)
      rw [hj2, hk ⟨n, hlt⟩]
      have h1 := ih ⟨n, by omega⟩ rfl
      have h2 := h1.add hB hq
      rw [← succ_nsmul] at h2
      exact h2
  exact fun j => main j.val j rfl

/-- Selecting the `n`-th multiple from a table of the multiples of `a`. -/
theorem Table.Select_represents {B : F} {table : Table F} {a : (curve B).Point}
    (ht : ∀ j : Fin 15, Represents B (table j) ((j.val + 1) • a)) {n : Nat} (hn : n < 16) :
    ∃ t, table.Select n = .ok t ∧ Represents B t (n • a) := by
  rcases Nat.eq_zero_or_pos n with h0 | hpos
  · subst h0
    exact ⟨NewPoint, Table.Select_zero table, by simpa using Represents.newPoint B⟩
  · have hlt : n - 1 < 15 := by omega
    refine ⟨table ⟨n - 1, hlt⟩, ?_, ?_⟩
    · have := Table.Select_succ table ⟨n - 1, hlt⟩
      simpa [Nat.sub_add_cancel hpos] using this
    · have := ht ⟨n - 1, hlt⟩
      simpa [Nat.sub_add_cancel hpos] using this

/-- The loop of `ScalarMult` keeps the accumulator a representative of the multiple read so
far. -/
theorem ScalarMult.loop_represents {B : F} (hB : OddOrder B) {table : Table F}
    {a : (curve B).Point} (ht : ∀ j : Fin 15, Represents B (table j) ((j.val + 1) • a)) :
    ∀ (scalar : List Byte) (i m : Nat) (p : Point F), (i = 0 → m = 0) →
      Represents B p (m • a) →
      ∃ r, ScalarMult.loop B table i scalar p = .ok r ∧
        Represents B r ((m * 256 ^ scalar.length + bytesToNat scalar) • a)
  | [], i, m, p, _, hp => ⟨p, rfl, by simpa [bytesToNat] using hp⟩
  | byte :: rest, i, m, p, hi, hp => by
    obtain ⟨hhi, hlo⟩ := window_values byte
    have h1 : Represents B (if i ≠ 0 then Double4 B p else p) ((16 * m) • a) := by
      by_cases h : i = 0
      · have hm := hi h
        subst hm
        simpa [h] using hp
      · simp only [ne_eq, h, not_false_eq_true, if_true]
        have := hp.double4 hB
        rwa [← mul_nsmul, mul_comm] at this
    obtain ⟨t1, ht1, hr1⟩ := Table.Select_represents ht
      (show byte.val / 16 < 16 by omega)
    have h2 := (h1.add hB hr1).double4 hB
    obtain ⟨t2, ht2, hr2⟩ := Table.Select_represents ht
      (show byte.val % 16 < 16 from Nat.mod_lt _ (by decide))
    have h3 := h2.add hB hr2
    rw [← add_nsmul, ← mul_nsmul, ← add_nsmul] at h3
    obtain ⟨r, hr, hrep⟩ := ScalarMult.loop_represents hB ht rest (i + 1)
      ((16 * m + byte.val / 16) * 16 + byte.val % 16) _ (by simp) h3
    refine ⟨r, ?_, ?_⟩
    · simp only [ScalarMult.loop, hhi, hlo, ht1, ht2]
      exact hr
    · have e : ((16 * m + byte.val / 16) * 16 + byte.val % 16) * 256 ^ rest.length
          + bytesToNat rest
          = m * 256 ^ (byte :: rest).length + bytesToNat (byte :: rest) := by
        have hb : byte.val = 16 * (byte.val / 16) + byte.val % 16 :=
          (Nat.div_add_mod _ _).symm
        have hw : (16 * m + byte.val / 16) * 16 + byte.val % 16 = 256 * m + byte.val := by
          omega
        simp only [bytesToNat, List.foldl, List.length_cons]
        rw [bytesToNat_cons_aux rest (0 * 256 + byte.val), hw]
        simp only [bytesToNat]
        ring
      rw [← e]
      exact hrep

theorem Represents.kFold {B : F} (hB : OddOrder B) {Q : Point F} {a : (curve B).Point}
    (hQ : Represents B Q a) : ∀ k : Nat, Represents B (kFold B Q k) (k • a)
  | 0 => by simpa [Nistec.kFold] using Represents.newPoint B
  | k + 1 => by
    have h := (Represents.kFold hB hQ k).add hB hQ
    rw [← succ_nsmul] at h
    exact h

/-- `ScalarMult` returns a representative of the multiple of the point by the big-endian value
of the scalar. -/
theorem ScalarMult_represents {B : F} (hB : OddOrder B) (p : Point F) {Q : Point F}
    {a : (curve B).Point} (hQ : Represents B Q a) (s : List Byte) :
    (ScalarMult B p Q s).failure = none ∧
      Represents B (ScalarMult B p Q s).receiver (bytesToNat s • a) := by
  obtain ⟨r, hr, hrep⟩ := ScalarMult.loop_represents hB (ScalarMult.table_represents hB hQ)
    s 0 0 (Point.Set NewPoint) (fun _ => rfl) (by simpa [Point.Set_eq] using Represents.newPoint B)
  have hloop : ScalarMult B p Q s = ⟨r, none⟩ := by
    simp only [ScalarMult, hr]
  rw [hloop]
  exact ⟨rfl, by simpa using hrep⟩

/-! ### Fixed-base scalar multiplication -/

theorem generatorTable.build_length (B : F) :
    ∀ (n : Nat) (base : Point F), (generatorTable.build B n base).length = n
  | 0, _ => rfl
  | n + 1, base => by
    simp [generatorTable.build, generatorTable.build_length B n]

/-- Entry `i` of the generator table holds the multiples of `16 ^ i` times the base point. -/
theorem generatorTable.build_represents {B : F} (hB : OddOrder B) :
    ∀ (n : Nat) (base : Point F) (a : (curve B).Point), Represents B base a →
      ∀ i : Nat, i < n → ∃ table, (generatorTable.build B n base).get? i = some table ∧
        ∀ j : Fin 15, Represents B (table j) ((j.val + 1) • (16 ^ i • a))
  | 0, _, _, _, i, hi => absurd hi (Nat.not_lt_zero i)
  | n + 1, base, a, hbase, 0, _ =>
    ⟨generatorTable.row B base, rfl, by
      simpa using generatorTable.row_represents hB hbase⟩
  | n + 1, base, a, hbase, i + 1, hi => by
    obtain ⟨table, hget, hrep⟩ := generatorTable.build_represents hB n (Double4 B base)
      (16 • a) (hbase.double4 hB) i (Nat.lt_of_succ_lt_succ hi)
    refine ⟨table, by simpa [generatorTable.build] using hget, ?_⟩
    intro j
    have e : 16 ^ i • 16 • a = 16 ^ (i + 1) • a := by
      rw [← mul_nsmul, ← pow_succ']
    rw [← e]
    exact hrep j

theorem tableAt_ofNat {tables : List (Table F)} {i : Nat} {table : Table F}
    (h : tables.get? i = some table) : tableAt tables (i : Int) = .ok table := by
  unfold tableAt
  rw [if_pos (Int.natCast_nonneg i), Int.toNat_ofNat, h]

/-- The loop of `ScalarBaseMult` adds, nibble by nibble, the multiples that the tables hold. -/
theorem ScalarBaseMult.baseLoop_represents {B : F} (hB : OddOrder B) {tables : List (Table F)}
    {a : (curve B).Point} :
    ∀ (scalar : List Byte) (m : Nat) (p : Point F),
      (∀ i : Nat, i < 2 * scalar.length → ∃ table, tables.get? i = some table ∧
        ∀ j : Fin 15, Represents B (table j) ((j.val + 1) • (16 ^ i • a))) →
      Represents B p (m • a) →
      ∃ r, ScalarBaseMult.loop B tables ((2 * scalar.length : Nat) - 1 : Int) scalar p = .ok r ∧
        Represents B r ((m + bytesToNat scalar) • a)
  | [], m, p, _, hp => ⟨p, rfl, by simpa [bytesToNat] using hp⟩
  | byte :: rest, m, p, ht, hp => by
    obtain ⟨hhi, hlo⟩ := window_values byte
    have hlen : (byte :: rest).length = rest.length + 1 := rfl
    obtain ⟨T1, hT1, hrep1⟩ := ht (2 * rest.length + 1) (by rw [hlen]; omega)
    obtain ⟨T0, hT0, hrep0⟩ := ht (2 * rest.length) (by rw [hlen]; omega)
    obtain ⟨t1, ht1, hr1⟩ := Table.Select_represents hrep1
      (show byte.val / 16 < 16 by omega)
    obtain ⟨t0, ht0, hr0⟩ := Table.Select_represents hrep0
      (show byte.val % 16 < 16 from Nat.mod_lt _ (by decide))
    have h3 := (hp.add hB hr1).add hB hr0
    rw [← mul_nsmul, ← mul_nsmul, ← add_nsmul, ← add_nsmul] at h3
    have hidx1 : ((2 * (byte :: rest).length : Nat) - 1 : Int) = ((2 * rest.length + 1 : Nat) : Int) := by
      rw [hlen]; push_cast; ring
    have hidx0 : (((2 * rest.length + 1 : Nat) : Int) - 1) = ((2 * rest.length : Nat) : Int) := by
      push_cast; ring
    obtain ⟨r, hr, hrep⟩ := ScalarBaseMult.baseLoop_represents hB rest
      (m + 16 ^ (2 * rest.length + 1) * (byte.val / 16) + 16 ^ (2 * rest.length) * (byte.val % 16))
      (Add B (Add B p t1) t0)
      (fun i hi => ht i (by rw [hlen]; omega)) h3
    refine ⟨r, ?_, ?_⟩
    · rw [hidx1]
      simp only [ScalarBaseMult.loop, hhi, hlo, tableAt_ofNat hT1, hidx0, tableAt_ofNat hT0,
        bind, Except.bind, ht1, ht0]
      exact hr
    · have e : m + 16 ^ (2 * rest.length + 1) * (byte.val / 16)
          + 16 ^ (2 * rest.length) * (byte.val % 16) + bytesToNat rest
          = m + bytesToNat (byte :: rest) := by
        have hb : byte.val = 16 * (byte.val / 16) + byte.val % 16 :=
          (Nat.div_add_mod _ _).symm
        have h256 : (256 : Nat) ^ rest.length = 16 ^ (2 * rest.length) := by
          rw [pow_mul]; norm_num
        simp only [bytesToNat, List.foldl]
        rw [bytesToNat_cons_aux rest (0 * 256 + byte.val), h256, pow_succ]
        simp only [bytesToNat]
        generalize 16 ^ (2 * rest.length) = X
        generalize List.foldl (fun acc (x : Byte) => acc * 256 + x.val) 0 rest = N
        rw [zero_mul, zero_add]
        nth_rewrite 3 [hb]
        ring
      rw [← e]
      exact hrep

/-- `ScalarBaseMult` on a scalar of `ElementLength` bytes returns a representative of the
multiple of the generator by the big-endian value of the scalar. -/
theorem ScalarBaseMult_represents {B : F} (hB : OddOrder B) {Gx Gy : F}
    {g : (curve B).Point} (hG : Represents B (SetGenerator Gx Gy) g) (ElementLength : Nat)
    (p : Point F) (s : List Byte) (hs : s.length = ElementLength) :
    (ScalarBaseMult B Gx Gy ElementLength p s).failure = none ∧
      Represents B (ScalarBaseMult B Gx Gy ElementLength p s).receiver (bytesToNat s • g) := by
  have hlen : (generatorTable B Gx Gy ElementLength).length = 2 * s.length := by
    rw [generatorTable, generatorTable.build_length, hs, mul_comm]
  obtain ⟨r, hr, hrep⟩ := @ScalarBaseMult.baseLoop_represents F _ B hB
    (generatorTable B Gx Gy ElementLength) g s 0 (Point.Set NewPoint)
    (fun i hi => generatorTable.build_represents hB _ _ g hG i (by rw [hs] at hi; omega))
    (by simpa [Point.Set_eq] using Represents.newPoint B)
  have hcall : ScalarBaseMult B Gx Gy ElementLength p s = ⟨r, none⟩ := by
    simp only [ScalarBaseMult, hs, ne_eq, not_true_eq_false, if_false, hlen]
    rw [hs] at hr
    simp only [hr]
  rw [hcall]
  exact ⟨rfl, by simpa using hrep⟩

/-! ### Further facts on representatives -/

theorem Represents.neg {B : F} {P : Point F} {a : (curve B).Point} (hP : Represents B P a) :
    Represents B ⟨P.x, -P.y, P.z⟩ (-a) := by
  cases a with
  | zero =>
    obtain ⟨hx, hy, hz⟩ := hP
    exact ⟨hx, neg_ne_zero.mpr hy, hz⟩
  | @some x y hn =>
    obtain ⟨hz, hx, hy⟩ := hP
    rw [WeierstrassCurve.Affine.Point.neg_some]
    refine ⟨hz, hx, ?_⟩
    show -P.y = (curve B).negY x y * P.z
    rw [curve_negY, hy]
    ring

theorem SetGenerator_represents {B : F} (hB : OddOrder B) {Gx Gy : F}
    (hG : Gy ^ 2 = Gx ^ 3 - 3 * Gx + B) :
    Represents B (SetGenerator Gx Gy) (.some (hB.nonsingular hG)) :=
  ⟨one_ne_zero, (mul_one Gx).symm, (mul_one Gy).symm⟩

/-- The test curve `y² = x³ - 3x + 1` over the field with 7 elements has no point of order
two. -/
theorem testCurve_oddOrder : OddOrder (1 : ZMod 7) :=
  ⟨by decide, by decide⟩

/-! ### Evaluation on small scalars -/

/-- `ScalarMult` on a scalar of one byte between 1 and 15. -/
theorem ScalarMult_single (B : F) (p q : Point F) (b : Byte) (j : Fin 15)
    (hb : b.val = j.val + 1) :
    ScalarMult B p q [b] =
      ⟨Add B (Double4 B (Add B NewPoint NewPoint)) (ScalarMult.table B q j), none⟩ := by
  obtain ⟨hhi, hlo⟩ := window_values b
  have h1 : b.val / 16 = 0 := by omega
  have h2 : b.val % 16 = j.val + 1 := by omega
  simp only [ScalarMult, ScalarMult.loop, hhi, hlo, h1, h2, Table.Select_zero,
    Table.Select_succ, bind, Except.bind, Point.Set_eq, ne_eq, not_true_eq_false, if_false]

/-- The third entry of the table of `ScalarMult`. -/
theorem ScalarMult.table_two (B : F) (q : Point F) :
    ScalarMult.table B q 2 = Add B (Double B q) q := by
  obtain ⟨h0, hk⟩ := ScalarMult.table_spec B q
  have h2 : ScalarMult.table B q 2 = Add B (ScalarMult.table B q 1) q := (hk 0).2
  have h1 : ScalarMult.table B q 1 = Double B (ScalarMult.table B q 0) := (hk 0).1
  rw [h2, h1, h0]

/-- The identity is a fixed point of `Add` and `Double`, on every curve. -/
theorem Add_NewPoint_NewPoint (B : F) : Add B NewPoint NewPoint = NewPoint := by
  simp [Add, NewPoint]

theorem Double_NewPoint (B : F) : Double B NewPoint = NewPoint := by
  simp [Double, NewPoint]

theorem Double4_NewPoint (B : F) : Double4 B NewPoint = NewPoint := by
  simp only [Double4, Double_NewPoint]

/-! ### The point codec -/

section CodecLemmas

variable [DecidableEq F]

theorem Polynomial_eq (B x : F) : Polynomial B x = x ^ 3 - 3 * x + B := by
  simp only [Polynomial]
  ring

theorem CheckOnCurve_eq_none {B x y : F} (h : y ^ 2 = x ^ 3 - 3 * x + B) :
    CheckOnCurve B x y = none := by
  have : Polynomial B x = y * y := by rw [Polynomial_eq, ← h]; ring
  simp [CheckOnCurve, Element.Equal, this]

theorem SetBytes_infinity (c : ElementCodec F) (B : F) (cand : F → F) (p : Point F) :
    SetBytes c B cand p [0] = ⟨NewPoint, none⟩ := by
  simp [SetBytes, Point.Set_eq]

theorem take_drop_tagged (t : Byte) (l1 l2 : List Byte) :
    ((t :: (l1 ++ l2)).take (1 + l1.length)).drop 1 = l1 := by
  rw [Nat.add_comm, List.take_succ_cons, List.drop_one, List.tail_cons, List.take_left]

theorem drop_tagged (t : Byte) (l1 l2 : List Byte) :
    (t :: (l1 ++ l2)).drop (1 + l1.length) = l2 := by
  rw [Nat.add_comm, List.drop_succ_cons, List.drop_left]

/-- Decoding the uncompressed encoding of an affine point of the curve. -/
theorem SetBytes_uncompressed {c : ElementCodec F} (hc : c.Lawful) (B : F) (cand : F → F)
    (p : Point F) {x y : F} (h : y ^ 2 = x ^ 3 - 3 * x + B) :
    SetBytes c B cand p (4 :: (c.Bytes x ++ c.Bytes y)) = ⟨⟨x, y, 1⟩, none⟩ := by
  have hlx := hc.length_Bytes x
  have hly := hc.length_Bytes y
  have h1 : ¬ ((4 :: (c.Bytes x ++ c.Bytes y)).length = 1 ∧
      (4 :: (c.Bytes x ++ c.Bytes y)).head? = some 0) := by
    simp
  have h2 : (4 :: (c.Bytes x ++ c.Bytes y)).length = 1 + 2 * c.ElementLength ∧
      (4 :: (c.Bytes x ++ c.Bytes y)).head? = some 4 := by
    constructor
    · simp [hlx, hly]; omega
    · simp
  have hx := take_drop_tagged 4 (c.Bytes x) (c.Bytes y)
  have hy := drop_tagged 4 (c.Bytes x) (c.Bytes y)
  rw [hlx] at hx hy
  rw [SetBytes, if_neg h1, if_pos h2]
  simp only [hx, hy, hc.SetBytes_Bytes, CheckOnCurve_eq_none h]
theorem OnCurve.affine {B : F} {P : Point F} (h : OnCurve B P) (hz : P.z ≠ 0) :
    (P.y / P.z) ^ 2 = (P.x / P.z) ^ 3 - 3 * (P.x / P.z) + B := by
  unfold OnCurve at h
  field_simp
  linear_combination P.z ^ 3 * h

theorem Point.Bytes_of_z_eq_zero (c : ElementCodec F) {P : Point F} (hz : P.z = 0) :
    P.Bytes c = [0] := by
  simp [Point.Bytes, Element.IsZero, hz]

theorem Point.Bytes_of_z_ne_zero (c : ElementCodec F) {P : Point F} (hz : P.z ≠ 0) :
    P.Bytes c = 4 :: (c.Bytes (P.x / P.z) ++ c.Bytes (P.y / P.z)) := by
  simp [Point.Bytes, Element.IsZero, hz, div_eq_mul_inv]

theorem Point.BytesCompressed_of_z_eq_zero (c : ElementCodec F) {P : Point F} (hz : P.z = 0) :
    P.BytesCompressed c = [0] := by
  simp [Point.BytesCompressed, Element.IsZero, hz]

theorem lastBit_lt_two (c : ElementCodec F) (y : F) : lastBit c y < 2 := by
  unfold lastBit
  rw [Nat.and_one_is_mod]
  exact Nat.mod_lt _ (by decide)

theorem compressedTag_val (c : ElementCodec F) (y : F) :
    (compressedTag c y).val = 2 ||| lastBit c y ∧
      (compressedTag c y).val &&& 1 = lastBit c y ∧
      (compressedTag c y = 2 ∨ compressedTag c y = 3) := by
  have h := lastBit_lt_two c y
  have hl : lastBit c y = 0 ∨ lastBit c y = 1 := by omega
  rcases hl with h0 | h1
  · have e : compressedTag c y = 2 := Fin.ext (by simp [compressedTag, h0])
    rw [e, h0]
    exact ⟨by decide, by decide, Or.inl rfl⟩
  · have e : compressedTag c y = 3 := Fin.ext (by simp [compressedTag, h1])
    rw [e, h1]
    exact ⟨by decide, by decide, Or.inr rfl⟩

theorem Point.BytesCompressed_of_z_ne_zero (c : ElementCodec F) {P : Point F}
    (hz : P.z ≠ 0) :
    P.BytesCompressed c = compressedTag c (P.y / P.z) :: c.Bytes (P.x / P.z) := by
  simp [Point.BytesCompressed, Element.IsZero, hz, div_eq_mul_inv, compressedTag]

/-- Decoding a string of none of the three shapes. -/
theorem SetBytes_malformed (c : ElementCodec F) (B : F) (cand : F → F) (p : Point F)
    (b : List Byte) (h1 : ¬ (b.length = 1 ∧ b.head? = some 0))
    (h2 : ¬ (b.length = 1 + 2 * c.ElementLength ∧ b.head? = some 4))
    (h3 : ¬ (b.length = 1 + c.ElementLength ∧ (b.head? = some 2 ∨ b.head? = some 3))) :
    SetBytes c B cand p b = ⟨p, some (.err "invalid point encoding")⟩ := by
  rw [SetBytes, if_neg h1, if_neg h2, if_neg h3]

/-- Decoding the compressed encoding `tag || x`, when the candidate for the square root of
`x³ - 3x + B` squares back to it. -/
theorem SetBytes_compressed {c : ElementCodec F} (hc : c.Lawful) (B : F) (cand : F → F)
    (p : Point F) (x : F) (tag : Byte) (htag : tag = 2 ∨ tag = 3)
    (hsq : cand (Polynomial B x) * cand (Polynomial B x) = Polynomial B x) :
    SetBytes c B cand p (tag :: c.Bytes x) =
      ⟨⟨x, Element.Select (0 - cand (Polynomial B x)) (cand (Polynomial B x))
        (lastBit c (cand (Polynomial B x)) ^^^ (tag.val &&& 1)), 1⟩, none⟩ := by
  have hlx := hc.length_Bytes x
  have h1 : ¬ ((tag :: c.Bytes x).length = 1 ∧ (tag :: c.Bytes x).head? = some 0) := by
    rcases htag with rfl | rfl <;> simp
  have h2 : ¬ ((tag :: c.Bytes x).length = 1 + 2 * c.ElementLength ∧
      (tag :: c.Bytes x).head? = some 4) := by
    rcases htag with rfl | rfl <;> simp
  have h3 : (tag :: c.Bytes x).length = 1 + c.ElementLength ∧
      ((tag :: c.Bytes x).head? = some 2 ∨ (tag :: c.Bytes x).head? = some 3) := by
    refine ⟨by simp [hlx]; omega, ?_⟩
    rcases htag with rfl | rfl <;> simp
  rw [SetBytes, if_neg h1, if_neg h2, if_pos h3]
  simp only [List.drop_one, List.tail_cons, hc.SetBytes_Bytes, Sqrt, Element.Equal, hsq,
    if_true, ne_eq, not_true_eq_false, if_false, List.headD_cons]

end CodecLemmas

/-! ### The square root in a field of `p = 3 mod 4` elements -/

/-- The candidate `x ^ ((p + 1) / 4)` is a square root of every square. -/
theorem SqrtCandidate_sq {p : Nat} [Fact p.Prime] (hp : p % 4 = 3) (y : ZMod p) :
    SqrtCandidate p (y * y) * SqrtCandidate p (y * y) = y * y := by
  have h4 : 4 * ((p + 1) / 4) = p + 1 := by omega
  unfold SqrtCandidate
  calc (y * y) ^ ((p + 1) / 4) * (y * y) ^ ((p + 1) / 4)
      = y ^ (4 * ((p + 1) / 4)) := by rw [pow_mul]; ring
    _ = y ^ p * y := by rw [h4, pow_succ]
    _ = y * y := by rw [ZMod.pow_card]

/-! ### The big-endian element codec -/

theorem natToBytes_length : ∀ (L n : Nat), (natToBytes L n).length = L
  | 0, _ => rfl
  | L + 1, n => by simp [natToBytes, natToBytes_length L]

theorem bytesToNat_append_singleton (l : List Byte) (b : Byte) :
    bytesToNat (l ++ [b]) = bytesToNat l * 256 + b.val := by
  simp [bytesToNat, List.foldl_append]

theorem bytesToNat_natToBytes : ∀ (L n : Nat), bytesToNat (natToBytes L n) = n % 256 ^ L
  | 0, n => by simp [natToBytes, bytesToNat, Nat.mod_one]
  | L + 1, n => by
    rw [natToBytes, bytesToNat_append_singleton, bytesToNat_natToBytes L, pow_succ',
      Nat.mod_mul]
    simp only []
    ring

theorem natToBytes_last (L n : Nat) :
    ((natToBytes (L + 1) n).getD (L + 1 - 1) 0).val = n % 256 := by
  have hl := natToBytes_length L (n / 256)
  rw [natToBytes, Nat.add_sub_cancel, List.getD_append_right _ _ _ _ (by rw [hl])]
  simp [hl]

/-- The big-endian codec obeys the laws of an element codec when the residues fit in
`L` bytes. -/
theorem bigEndianCodec_lawful (p L : Nat) [NeZero p] (h : p ≤ 256 ^ L) :
    (bigEndianCodec p L).Lawful := by
  refine ⟨fun x => natToBytes_length L x.val, fun x => ?_⟩
  have hx : x.val < p := ZMod.val_lt x
  have hv : bytesToNat (natToBytes L x.val) = x.val := by
    rw [bytesToNat_natToBytes, Nat.mod_eq_of_lt (lt_of_lt_of_le hx h)]
  show (if (natToBytes L x.val).length = L ∧ bytesToNat (natToBytes L x.val) < p
    then some (bytesToNat (natToBytes L x.val) : ZMod p) else none) = some x
  rw [if_pos ⟨natToBytes_length L x.val, by rw [hv]; exact hx⟩, hv, ZMod.natCast_zmod_val]

/-- In the big-endian codec of an odd modulus a nonzero residue and its negation have
different parities. -/
theorem bigEndianCodec_oddParity (p L : Nat) [Fact p.Prime] (hodd : p % 2 = 1) (hL : 0 < L) :
    (bigEndianCodec p L).OddParity := by
  intro y hy
  obtain ⟨L, rfl⟩ : ∃ k, L = k + 1 := ⟨L - 1, by omega⟩
  have hlast : ∀ z : ZMod p, lastBit (bigEndianCodec p (L + 1)) z = z.val % 2 := by
    intro z
    show ((natToBytes (L + 1) z.val).getD (L + 1 - 1) 0).val &&& 1 = _
    rw [natToBytes_last, Nat.and_one_is_mod]
    omega
  rw [hlast, hlast, ZMod.neg_val, if_neg hy]
  have hlt : y.val < p := ZMod.val_lt y
  have hpos : 0 < y.val := by
    rcases Nat.eq_zero_or_pos y.val with h0 | h0
    · exact absurd ((ZMod.val_eq_zero y).mp h0) hy
    · exact h0
  omega

/-! ### The calls made by `ScalarMult` -/

theorem ScalarMult.tableTraced_fold (B : F) (q : Point F) :
    ∀ (l : List (Fin 7)) (t : Table F) (log : List Op),
      l.foldl
        (fun (state : Table F × List Op) k =>
          let table := Function.update state.1 ⟨2 * k.val + 1, by omega⟩
            (Double B (state.1 ⟨(2 * k.val + 1) / 2, by omega⟩))
          let log := state.2 ++ [Op.double]
          let table := Function.update table ⟨2 * k.val + 1 + 1, by omega⟩
            (Add B (table ⟨2 * k.val + 1, by omega⟩) q)
          let log := log ++ [Op.add]
          (table, log))
        (t, log) =
      (l.foldl
        (fun (table : Table F) k =>
          let table := Function.update table ⟨2 * k.val + 1, by omega⟩
            (Double B (table ⟨(2 * k.val + 1) / 2, by omega⟩))
          Function.update table ⟨2 * k.val + 1 + 1, by omega⟩
            (Add B (table ⟨2 * k.val + 1, by omega⟩) q)) t,
        log ++ (List.replicate l.length [Op.double, Op.add]).flatten)
  | [], t, log => by simp
  | k :: l, t, log => by
    simp only [List.foldl, List.length_cons, List.replicate_succ, List.flatten_cons]
    rw [ScalarMult.tableTraced_fold B q l]
    simp

/-- The instrumented table is the table, and its build calls `Double` then `Add` seven
times. -/
theorem ScalarMult.tableTraced_eq (B : F) (q : Point F) :
    ScalarMult.tableTraced B q = (ScalarMult.table B q, ScalarMult.tableOps) := by
  unfold ScalarMult.tableTraced ScalarMult.table
  rw [ScalarMult.tableTraced_fold]
  simp [ScalarMult.tableOps]

/-- The instrumented loop returns what the loop returns, and its calls depend on the number
of bytes alone. -/
theorem ScalarMult.loopTraced_eq (B : F) (table : Table F) :
    ∀ (scalar : List Byte) (i : Nat) (p : Point F) (log : List Op),
      ScalarMult.loopTraced B table i scalar p log =
        (ScalarMult.loop B table i scalar p).map
          (fun r => (r, log ++ ScalarMult.loopOps i scalar.length))
  | [], i, p, log => by
    simp [ScalarMult.loopTraced, ScalarMult.loop, ScalarMult.loopOps, Except.map]
  | byte :: rest, i, p, log => by
    have hsel1 : byte.val >>> 4 < 16 := by
      rw [(window_values byte).1]; omega
    have hsel2 : byte.val &&& 0b1111 < 16 := by
      rw [(window_values byte).2]; exact Nat.mod_lt _ (by decide)
    obtain ⟨t1, ht1⟩ : ∃ t, table.Select (byte.val >>> 4) = .ok t := by
      simp [Table.Select, Nat.not_le.mpr hsel1]
    obtain ⟨t2, ht2⟩ : ∃ t, table.Select (byte.val &&& 0b1111) = .ok t := by
      simp [Table.Select, Nat.not_le.mpr hsel2]
    by_cases hi : i = 0
    · subst hi
      simp only [ScalarMult.loopTraced, ScalarMult.loop, ht1, ht2, bind, Except.bind, ne_eq,
        not_true_eq_false, if_false, List.length_cons, ScalarMult.loopOps]
      rw [ScalarMult.loopTraced_eq B table rest]
      simp
    · simp only [ScalarMult.loopTraced, ScalarMult.loop, ht1, ht2, bind, Except.bind, ne_eq,
        hi, not_false_eq_true, if_true, List.length_cons, ScalarMult.loopOps]
      rw [ScalarMult.loopTraced_eq B table rest]
      simp

theorem ScalarMult.loop_ok (B : F) (table : Table F) :
    ∀ (scalar : List Byte) (i : Nat) (p : Point F),
      ∃ r, ScalarMult.loop B table i scalar p = .ok r
  | [], i, p => ⟨p, rfl⟩
  | byte :: rest, i, p => by
    have hsel1 : byte.val >>> 4 < 16 := by
      rw [(window_values byte).1]; omega
    have hsel2 : byte.val &&& 0b1111 < 16 := by
      rw [(window_values byte).2]; exact Nat.mod_lt _ (by decide)
    obtain ⟨t1, ht1⟩ : ∃ t, table.Select (byte.val >>> 4) = .ok t := by
      simp [Table.Select, Nat.not_le.mpr hsel1]
    obtain ⟨t2, ht2⟩ : ∃ t, table.Select (byte.val &&& 0b1111) = .ok t := by
      simp [Table.Select, Nat.not_le.mpr hsel2]
    simp only [ScalarMult.loop, ht1, ht2, bind, Except.bind]
    exact ScalarMult.loop_ok B table rest _ _

theorem ScalarMultTraced_eq (B : F) (p q : Point F) (scalar : List Byte) :
    ScalarMultTraced B p q scalar =
      (ScalarMult B p q scalar,
        ScalarMult.tableOps ++ ScalarMult.loopOps 0 scalar.length) := by
  obtain ⟨r, hr⟩ := ScalarMult.loop_ok B (ScalarMult.table B q) scalar 0 (Point.Set NewPoint)
  simp only [ScalarMultTraced, ScalarMult, ScalarMult.tableTraced_eq, ScalarMult.loopTraced_eq,
    hr, Except.map]

theorem ScalarMult.loopOps_count (n : Nat) :
    ∀ i : Nat, (ScalarMult.loopOps i n).count Op.add = 2 * n ∧
      (ScalarMult.loopOps i n).count Op.select = 2 * n ∧
      (ScalarMult.loopOps i n).count Op.double + (if i = 0 ∧ 0 < n then 4 else 0) = 8 * n := by
  induction n with
  | zero => intro i; simp [ScalarMult.loopOps]
  | succ n ih =>
    intro i
    obtain ⟨h1, h2, h3⟩ := ih (i + 1)
    simp only [Nat.add_eq_zero, one_ne_zero, and_false, false_and, if_false, add_zero] at h3
    by_cases hi : i = 0
    · subst hi
      simp only [ScalarMult.loopOps, ne_eq, not_true_eq_false, if_false, List.nil_append,
        List.count_append, h1, h2, h3]
      refine ⟨?_, ?_, ?_⟩
      · simp [List.count_cons]; omega
      · simp [List.count_cons]; omega
      · simp [List.count_cons]; omega
    · simp only [ScalarMult.loopOps, ne_eq, hi, not_false_eq_true, if_true,
        List.count_append, h1, h2, h3]
      refine ⟨?_, ?_, ?_⟩
      · simp [List.count_cons]; omega
      · simp [List.count_cons]; omega
      · simp [List.count_cons, hi]; omega

/-! ### Failure paths of the codec and of the scalar multipliers -/

section CodecFailure

variable [DecidableEq F]

/-- `Sqrt` in terms of the candidate. -/
theorem Sqrt_eq (cand : F → F) (e x : F) :
    Sqrt cand e x = if cand x * cand x = x then (cand x, true) else (e, false) := by
  by_cases h : cand x * cand x = x
  · simp [Sqrt, Element.Equal, h]
  · simp [Sqrt, Element.Equal, h]

/-- Every error return of `SetBytes` leaves the receiver as it was. -/
theorem SetBytes_failure (c : ElementCodec F) (B : F) (cand : F → F) (p : Point F)
    (b : List Byte) (e : Failure) (h : (SetBytes c B cand p b).failure = some e) :
    (SetBytes c B cand p b).receiver = p ∧
      (e = .err "invalid point encoding" ∨ e = .err "invalid element encoding" ∨
        e = .err "point not on curve" ∨ e = .err "invalid compressed point encoding") := by
  unfold SetBytes at h ⊢
  unfold CheckOnCurve at h ⊢
  simp only [Sqrt_eq] at h ⊢
  split_ifs at h ⊢ <;> (repeat' split at h) <;> simp_all

/-- What `SetBytes` does on a string of the compressed shape. -/
theorem SetBytes_compressed_shape (c : ElementCodec F) (B : F) (cand : F → F) (p : Point F)
    (b : List Byte) (hlen : b.length = 1 + c.ElementLength)
    (htag : b.head? = some 2 ∨ b.head? = some 3) :
    SetBytes c B cand p b =
      match c.SetBytes (b.drop 1) with
      | none => ⟨p, some (.err "invalid element encoding")⟩
      | some x =>
        if cand (Polynomial B x) * cand (Polynomial B x) = Polynomial B x then
          ⟨⟨x, Element.Select (0 - cand (Polynomial B x)) (cand (Polynomial B x))
            (lastBit c (cand (Polynomial B x)) ^^^ ((b.headD 0).val &&& 1)), 1⟩, none⟩
        else ⟨p, some (.err "invalid compressed point encoding")⟩ := by
  have h1 : ¬ (b.length = 1 ∧ b.head? = some 0) := by
    rintro ⟨-, h0⟩
    rcases htag with h | h <;> rw [h0] at h <;> exact absurd h (by decide)
  have h2 : ¬ (b.length = 1 + 2 * c.ElementLength ∧ b.head? = some 4) := by
    rintro ⟨-, h0⟩
    rcases htag with h | h <;> rw [h0] at h <;> exact absurd h (by decide)
  rw [SetBytes, if_neg h1, if_neg h2, if_pos ⟨hlen, htag⟩]
  cases hx : c.SetBytes (b.drop 1) with
  | none => rfl
  | some x =>
    by_cases hsq : cand (Polynomial B x) * cand (Polynomial B x) = Polynomial B x
    · simp only [Sqrt, Element.Equal, hsq, if_true, ne_eq, not_true_eq_false, if_false]
    · simp only [Sqrt, Element.Equal, hsq, if_false, ne_eq, one_ne_zero, not_false_eq_true,
        if_true, zero_ne_one]

theorem Point.BytesX_of_z_eq_zero (c : ElementCodec F) {P : Point F} (hz : P.z = 0) :
    P.BytesX c = .error (.err "point is the point at infinity") := by
  simp [Point.BytesX, Element.IsZero, hz]

theorem Point.BytesX_of_z_ne_zero (c : ElementCodec F) {P : Point F} (hz : P.z ≠ 0) :
    P.BytesX c = .ok (c.Bytes (P.x / P.z)) := by
  simp [Point.BytesX, Element.IsZero, hz, div_eq_mul_inv]

end CodecFailure

theorem Table.Select_ok (table : Table F) {n : Nat} (hn : n < 16) :
    ∃ t, table.Select n = .ok t := by
  simp [Table.Select, Nat.not_le.mpr hn]

/-- The loop of `ScalarBaseMult` does not fail when there are two tables for every byte. -/
theorem ScalarBaseMult.baseLoop_ok (B : F) (tables : List (Table F)) :
    ∀ (scalar : List Byte) (p : Point F), 2 * scalar.length ≤ tables.length →
      ∃ r, ScalarBaseMult.loop B tables ((2 * scalar.length : Nat) - 1 : Int) scalar p = .ok r
  | [], p, _ => ⟨p, rfl⟩
  | byte :: rest, p, hlen => by
    have hl : (byte :: rest).length = rest.length + 1 := rfl
    rw [hl] at hlen
    obtain ⟨T1, hT1⟩ : ∃ T, tables.get? (2 * rest.length + 1) = some T :=
      ⟨_, List.get?_eq_get (by omega)⟩
    obtain ⟨T0, hT0⟩ : ∃ T, tables.get? (2 * rest.length) = some T :=
      ⟨_, List.get?_eq_get (by omega)⟩
    have hsel1 : byte.val >>> 4 < 16 := by
      rw [(window_values byte).1]; omega
    have hsel2 : byte.val &&& 0b1111 < 16 := by
      rw [(window_values byte).2]; exact Nat.mod_lt _ (by decide)
    obtain ⟨t1, ht1⟩ := Table.Select_ok T1 hsel1
    obtain ⟨t0, ht0⟩ := Table.Select_ok T0 hsel2
    have hidx1 : ((2 * (byte :: rest).length : Nat) - 1 : Int)
        = ((2 * rest.length + 1 : Nat) : Int) := by
      rw [hl]; push_cast; ring
    have hidx0 : (((2 * rest.length + 1 : Nat) : Int) - 1) = ((2 * rest.length : Nat) : Int) := by
      push_cast; ring
    obtain ⟨r, hr⟩ := ScalarBaseMult.baseLoop_ok B tables rest (Add B (Add B p t1) t0)
      (by omega)
    refine ⟨r, ?_⟩
    rw [hidx1]
    simp only [ScalarBaseMult.loop, tableAt_ofNat hT1, hidx0, tableAt_ofNat hT0,
      bind, Except.bind, ht1, ht0]
    exact hr

/-- On a scalar of zero bytes the loop of `ScalarMult` keeps the accumulator at the
identity. -/
theorem ScalarMult.loop_zero (B : F) (table : Table F) :
    ∀ (scalar : List Byte) (i : Nat), (∀ byte ∈ scalar, byte = 0) →
      ScalarMult.loop B table i scalar NewPoint = .ok NewPoint
  | [], _, _ => rfl
  | byte :: rest, i, h => by
    have hb : byte = 0 := h byte (List.mem_cons_self _ _)
    subst hb
    have h1 : ((0 : Byte).val >>> 4) = 0 := rfl
    have h2 : ((0 : Byte).val &&& 0b1111) = 0 := rfl
    simp only [ScalarMult.loop, h1, h2, Table.Select_zero, bind, Except.bind,
      Double4_NewPoint, ite_self, Add_NewPoint_NewPoint]
    exact ScalarMult.loop_zero B table rest (i + 1)
      (fun b hb => h b (List.mem_cons_of_mem _ hb))

/-! ### The generator table -/

/-- The 16-fold sum of the point `(1, 2)` of the curve `y² = x³ - 3x + 6` over the field with
7 elements, which has 11 points. -/
theorem kFold_sixteen_order_eleven : kFold (6 : ZMod 7) ⟨1, 2, 1⟩ 16 = ⟨5, 5, 3⟩ := by
  have h1 : Add (6 : ZMod 7) NewPoint ⟨1, 2, 1⟩ = ⟨2, 4, 2⟩ := by decide
  have h2 : Add (6 : ZMod 7) ⟨2, 4, 2⟩ ⟨1, 2, 1⟩ = ⟨6, 6, 4⟩ := by decide
  have h3 : Add (6 : ZMod 7) ⟨6, 6, 4⟩ ⟨1, 2, 1⟩ = ⟨6, 4, 3⟩ := by decide
  have h4 : Add (6 : ZMod 7) ⟨6, 4, 3⟩ ⟨1, 2, 1⟩ = ⟨3, 3, 4⟩ := by decide
  have h5 : Add (6 : ZMod 7) ⟨3, 3, 4⟩ ⟨1, 2, 1⟩ = ⟨6, 6, 5⟩ := by decide
  have h6 : Add (6 : ZMod 7) ⟨6, 6, 5⟩ ⟨1, 2, 1⟩ = ⟨5, 2, 3⟩ := by decide
  have h7 : Add (6 : ZMod 7) ⟨5, 2, 3⟩ ⟨1, 2, 1⟩ = ⟨6, 1, 1⟩ := by decide
  have h8 : Add (6 : ZMod 7) ⟨6, 1, 1⟩ ⟨1, 2, 1⟩ = ⟨6, 3, 3⟩ := by decide
  have h9 : Add (6 : ZMod 7) ⟨6, 3, 3⟩ ⟨1, 2, 1⟩ = ⟨4, 3, 5⟩ := by decide
  have h10 : Add (6 : ZMod 7) ⟨4, 3, 5⟩ ⟨1, 2, 1⟩ = ⟨3, 1, 3⟩ := by decide
  have h11 : Add (6 : ZMod 7) ⟨3, 1, 3⟩ ⟨1, 2, 1⟩ = ⟨0, 3, 0⟩ := by decide
  have h12 : Add (6 : ZMod 7) ⟨0, 3, 0⟩ ⟨1, 2, 1⟩ = ⟨4, 1, 4⟩ := by decide
  have h13 : Add (6 : ZMod 7) ⟨4, 1, 4⟩ ⟨1, 2, 1⟩ = ⟨3, 3, 2⟩ := by decide
  have h14 : Add (6 : ZMod 7) ⟨3, 3, 2⟩ ⟨1, 2, 1⟩ = ⟨5, 1, 6⟩ := by decide
  have h15 : Add (6 : ZMod 7) ⟨5, 1, 6⟩ ⟨1, 2, 1⟩ = ⟨5, 5, 2⟩ := by decide
  have h16 : Add (6 : ZMod 7) ⟨5, 5, 2⟩ ⟨1, 2, 1⟩ = ⟨5, 5, 3⟩ := by decide
  simp only [kFold, h1, h2, h3, h4, h5, h6, h7, h8, h9, h10, h11, h12, h13, h14, h15, h16]

theorem generatorTable_first (B Gx Gy : F) (ElementLength : Nat) (h : 0 < ElementLength) :
    (generatorTable B Gx Gy ElementLength).get? 0 =
      some (generatorTable.row B (SetGenerator Gx Gy)) := by
  obtain ⟨n, hn⟩ : ∃ n, ElementLength * 2 = n + 1 := ⟨ElementLength * 2 - 1, by omega⟩
  rw [generatorTable, hn]
  rfl

/-- The generator table, entry by entry: entry `i` holds the first 15 multiples of the
generator scaled by `16 ^ i`. -/
theorem generatorTable_samePoint {B : F} (hB : OddOrder B) {Gx Gy : F}
    (hG : Gy ^ 2 = Gx ^ 3 - 3 * Gx + B) (ElementLength : Nat) (i : Nat)
    (hi : i < 2 * ElementLength) :
    ∃ table, (generatorTable B Gx Gy ElementLength).get? i = some table ∧
      ∀ j : Fin 15,
        SamePoint (table j) (kFold B (SetGenerator Gx Gy) ((j.val + 1) * 16 ^ i)) := by
  have hg := SetGenerator_represents hB hG
  obtain ⟨table, hget, hrep⟩ := generatorTable.build_represents hB (ElementLength * 2) _ _ hg i
    (by omega)
  refine ⟨table, hget, fun j => ?_⟩
  have h1 := hrep j
  rw [← mul_nsmul, mul_comm] at h1
  exact h1.samePoint (Represents.kFold hB hg _)

/-! ### The arguments of `Table.Select` in the scalar multipliers -/

/-- The instrumented loop of `ScalarMult` returns what the loop returns. -/
theorem ScalarMult.loopCalls_result (B : F) (table : Table F) :
    ∀ (scalar : List Byte) (i : Nat) (p : Point F) (log : List Nat),
      (ScalarMult.loopCalls B table i scalar p log).2 = ScalarMult.loop B table i scalar p
  | [], _, _, _ => rfl
  | byte :: rest, i, p, log => by
    simp only [ScalarMult.loopCalls, ScalarMult.loop, bind, Except.bind]
    cases h1 : table.Select (byte.val >>> 4) with
    | error f => rfl
    | ok t1 =>
      simp only []
      cases h2 : table.Select (byte.val &&& 0b1111) with
      | error f => rfl
      | ok t2 =>
        simp only []
        exact ScalarMult.loopCalls_result B table rest (i + 1) _ _

/-- The instrumented loop of `ScalarMult` logs the two windows of every byte, each below 16. -/
theorem ScalarMult.loopCalls_log (B : F) (table : Table F) :
    ∀ (scalar : List Byte) (i : Nat) (p : Point F) (log : List Nat),
      (ScalarMult.loopCalls B table i scalar p log).1 =
        log ++ scalar.flatMap (fun byte => [byte.val >>> 4, byte.val &&& 0b1111])
  | [], _, _, log => by simp [ScalarMult.loopCalls]
  | byte :: rest, i, p, log => by
    have hsel1 : byte.val >>> 4 < 16 := by
      rw [(window_values byte).1]; omega
    have hsel2 : byte.val &&& 0b1111 < 16 := by
      rw [(window_values byte).2]; exact Nat.mod_lt _ (by decide)
    obtain ⟨t1, ht1⟩ := Table.Select_ok table hsel1
    obtain ⟨t2, ht2⟩ := Table.Select_ok table hsel2
    simp only [ScalarMult.loopCalls, ht1, ht2]
    rw [ScalarMult.loopCalls_log B table rest]
    simp

/-- Both windows of a byte, the high nibble and the low nibble, are at most 15. -/
theorem window_le_fifteen (scalar : List Byte) :
    ∀ n ∈ scalar.flatMap (fun byte => [byte.val >>> 4, byte.val &&& 0b1111]), n ≤ 15 := by
  intro n hn
  rw [List.mem_flatMap] at hn
  obtain ⟨byte, -, hb⟩ := hn
  obtain ⟨hhi, hlo⟩ := window_values byte
  have h2 : byte.val % 16 < 16 := Nat.mod_lt _ (by decide)
  simp only [List.mem_cons, List.mem_singleton, List.not_mem_nil, or_false] at hb
  rcases hb with rfl | rfl
  · rw [hhi]; omega
  · rw [hlo]; omega

/-- The instrumented loop of `ScalarBaseMult` returns what the loop returns. -/
theorem ScalarBaseMult.baseLoopCalls_result (B : F) (tables : List (Table F)) :
    ∀ (scalar : List Byte) (tableIndex : Int) (p : Point F) (log : List (Int × Nat)),
      (ScalarBaseMult.loopCalls B tables tableIndex scalar p log).2 =
        ScalarBaseMult.loop B tables tableIndex scalar p
  | [], _, _, _ => rfl
  | byte :: rest, tableIndex, p, log => by
    simp only [ScalarBaseMult.loopCalls, ScalarBaseMult.loop, bind, Except.bind]
    cases h1 : tableAt tables tableIndex with
    | error f => rfl
    | ok T1 =>
      simp only []
      cases h2 : T1.Select (byte.val >>> 4) with
      | error f => rfl
      | ok t1 =>
        simp only []
        cases h3 : tableAt tables (tableIndex - 1) with
        | error f => rfl
        | ok T0 =>
          simp only []
          cases h4 : T0.Select (byte.val &&& 0b1111) with
          | error f => rfl
          | ok t0 =>
            simp only []
            exact ScalarBaseMult.baseLoopCalls_result B tables rest _ _ _

/-- Every pair that the instrumented loop of `ScalarBaseMult` logs has a window value below 16
and a table index among the `2 * len` indices ending at the starting index. -/
theorem ScalarBaseMult.baseLoopCalls_bound (B : F) (tables : List (Table F)) :
    ∀ (scalar : List Byte) (tableIndex : Int) (p : Point F) (log : List (Int × Nat)),
      ∀ call ∈ (ScalarBaseMult.loopCalls B tables tableIndex scalar p log).1,
        call ∈ log ∨
          (call.2 ≤ 15 ∧ tableIndex - 2 * scalar.length < call.1 ∧ call.1 ≤ tableIndex)
  | [], _, _, log => fun call h => Or.inl (by simpa [ScalarBaseMult.loopCalls] using h)
  | byte :: rest, tableIndex, p, log => by
    intro call hcall
    obtain ⟨hhi, hlo⟩ := window_values byte
    have h2 : byte.val % 16 < 16 := Nat.mod_lt _ (by decide)
    have hlen : ((byte :: rest).length : Int) = rest.length + 1 := by simp
    have hnew1 : ∀ c : Int × Nat, c ∈ log ++ [(tableIndex, byte.val >>> 4)] →
        c ∈ log ∨ (c.2 ≤ 15 ∧ tableIndex - 2 * ((byte :: rest).length : Int) < c.1 ∧
          c.1 ≤ tableIndex) := by
      intro c hc
      rcases List.mem_append.mp hc with h | h
      · exact Or.inl h
      · right
        rw [List.mem_singleton] at h
        subst h
        refine ⟨by show byte.val >>> 4 ≤ 15; rw [hhi]; omega, ?_, le_refl _⟩
        show tableIndex - 2 * ((byte :: rest).length : Int) < tableIndex
        rw [hlen]; omega
    have hnew2 : ∀ c : Int × Nat,
        c ∈ log ++ [(tableIndex, byte.val >>> 4)] ++ [(tableIndex - 1, byte.val &&& 0b1111)] →
        c ∈ log ∨ (c.2 ≤ 15 ∧ tableIndex - 2 * ((byte :: rest).length : Int) < c.1 ∧
          c.1 ≤ tableIndex) := by
      intro c hc
      rcases List.mem_append.mp hc with h | h
      · exact hnew1 c h
      · right
        rw [List.mem_singleton] at h
        subst h
        refine ⟨by show byte.val &&& 0b1111 ≤ 15; rw [hlo]; omega, ?_, ?_⟩
        · show tableIndex - 2 * ((byte :: rest).length : Int) < tableIndex - 1
          rw [hlen]; omega
        · show tableIndex - 1 ≤ tableIndex
          omega
    simp only [ScalarBaseMult.loopCalls] at hcall
    cases h1 : tableAt tables tableIndex with
    | error f =>
      rw [h1] at hcall
      exact hnew1 call hcall
    | ok T1 =>
      rw [h1] at hcall
      simp only [] at hcall
      cases h2 : T1.Select (byte.val >>> 4) with
      | error f =>
        rw [h2] at hcall
        exact hnew1 call hcall
      | ok t1 =>
        rw [h2] at hcall
        simp only [] at hcall
        cases h3 : tableAt tables (tableIndex - 1) with
        | error f =>
          rw [h3] at hcall
          exact hnew2 call hcall
        | ok T0 =>
          rw [h3] at hcall
          simp only [] at hcall
          cases h4 : T0.Select (byte.val &&& 0b1111) with
          | error f =>
            rw [h4] at hcall
            exact hnew2 call hcall
          | ok t0 =>
            rw [h4] at hcall
            simp only [] at hcall
            rcases ScalarBaseMult.baseLoopCalls_bound B tables rest _ _ _ call hcall with h | h
            · exact hnew2 call h
            · right
              obtain ⟨hn, hlo', hhi'⟩ := h
              refine ⟨hn, ?_, by omega⟩
              rw [hlen]; omega

/-- The instrumented loop of `ScalarBaseMult` logs two pairs for every byte when there are two
tables for every byte. -/
theorem ScalarBaseMult.baseLoopCalls_length (B : F) (tables : List (Table F)) :
    ∀ (scalar : List Byte) (p : Point F) (log : List (Int × Nat)),
      2 * scalar.length ≤ tables.length →
      (ScalarBaseMult.loopCalls B tables ((2 * scalar.length : Nat) - 1 : Int) scalar p log).1.length
        = log.length + 2 * scalar.length
  | [], _, log, _ => by simp [ScalarBaseMult.loopCalls]
  | byte :: rest, p, log, hlen => by
    have hl : (byte :: rest).length = rest.length + 1 := rfl
    rw [hl] at hlen
    obtain ⟨T1, hT1⟩ : ∃ T, tables.get? (2 * rest.length + 1) = some T :=
      ⟨_, List.get?_eq_get (by omega)⟩
    obtain ⟨T0, hT0⟩ : ∃ T, tables.get? (2 * rest.length) = some T :=
      ⟨_, List.get?_eq_get (by omega)⟩
    have hsel1 : byte.val >>> 4 < 16 := by
      rw [(window_values byte).1]; omega
    have hsel2 : byte.val &&& 0b1111 < 16 := by
      rw [(window_values byte).2]; exact Nat.mod_lt _ (by decide)
    obtain ⟨t1, ht1⟩ := Table.Select_ok T1 hsel1
    obtain ⟨t0, ht0⟩ := Table.Select_ok T0 hsel2
    have hidx1 : ((2 * (byte :: rest).length : Nat) - 1 : Int)
        = ((2 * rest.length + 1 : Nat) : Int) := by
      rw [hl]; push_cast; ring
    have hidx0 : (((2 * rest.length + 1 : Nat) : Int) - 1) = ((2 * rest.length : Nat) : Int) := by
      push_cast; ring
    rw [hidx1]
    simp only [ScalarBaseMult.loopCalls, tableAt_ofNat hT1, hidx0, tableAt_ofNat hT0, ht1, ht0]
    rw [ScalarBaseMult.baseLoopCalls_length B tables rest _ _ (by omega)]
    simp only [List.length_append, List.length_singleton, hl]
    omega

/-! ### Validity as an invariant of the point operations -/

theorem IsValid_NewPoint (B : F) : IsValid B (NewPoint : Point F) :=
  (Represents.newPoint B).isValid

theorem IsValid_Add {B : F} (hB : OddOrder B) {P Q : Point F} (hP : IsValid B P)
    (hQ : IsValid B Q) : IsValid B (Add B P Q) := by
  obtain ⟨a, ha⟩ := hP.exists_represents hB
  obtain ⟨b, hb⟩ := hQ.exists_represents hB
  exact (ha.add hB hb).isValid

theorem IsValid_Double {B : F} (hB : OddOrder B) {P : Point F} (hP : IsValid B P) :
    IsValid B (Double B P) := by
  obtain ⟨a, ha⟩ := hP.exists_represents hB
  exact (ha.double hB).isValid

/-- `Select` returns one of its two points, whatever `cond` is. -/
theorem Point.Select_eq_or (p1 p2 : Point F) (cond : Nat) :
    Point.Select p1 p2 cond = p1 ∨ Point.Select p1 p2 cond = p2 := by
  by_cases h : cond = 1
  · left
    simp [Point.Select, Element.Select, h]
  · right
    simp [Point.Select, Element.Select, h]

theorem IsValid_Select {B : F} {p1 p2 : Point F} (h1 : IsValid B p1) (h2 : IsValid B p2)
    (cond : Nat) : IsValid B (Point.Select p1 p2 cond) := by
  rcases Point.Select_eq_or p1 p2 cond with h | h
  · rw [h]; exact h1
  · rw [h]; exact h2

/-- A point that `Table.Select` returns from a table of valid points is valid. -/
theorem IsValid_Table_Select {B : F} {table : Table F} (ht : ∀ j : Fin 15, IsValid B (table j))
    {n : Nat} {t : Point F} (h : table.Select n = .ok t) : IsValid B t := by
  rcases Nat.lt_or_ge n 16 with hn | hn
  · rcases Nat.eq_zero_or_pos n with h0 | hpos
    · subst h0
      rw [Table.Select_zero] at h
      cases h
      exact IsValid_NewPoint B
    · have hlt : n - 1 < 15 := by omega
      have hs := Table.Select_succ table ⟨n - 1, hlt⟩
      have hn1 : n - 1 + 1 = n := by omega
      simp only [hn1] at hs
      rw [hs] at h
      cases h
      exact ht _
  · obtain ⟨msg, hm⟩ := Table.Select_fatal table n hn
    rw [hm] at h
    cases h

/-- An affine solution of the curve equation, with `Z = 1`, is a valid point. -/
theorem IsValid_of_affine {B x y : F} (h : y * y = x ^ 3 - 3 * x + B) :
    IsValid B ⟨x, y, 1⟩ := by
  refine ⟨?_, fun hz => one_ne_zero hz.2.2⟩
  show y ^ 2 * 1 = x ^ 3 - 3 * x * 1 ^ 2 + B * 1 ^ 3
  linear_combination h

section CodecValid

variable [DecidableEq F]

/-- What a successful `SetBytes` leaves in the receiver: the identity, or an affine solution of
the curve equation with `Z = 1`. -/
theorem SetBytes_success (c : ElementCodec F) (B : F) (cand : F → F) (p : Point F)
    (b : List Byte) (h : (SetBytes c B cand p b).failure = none) :
    (SetBytes c B cand p b).receiver = NewPoint ∨
      ∃ x y : F, (SetBytes c B cand p b).receiver = ⟨x, y, 1⟩ ∧ y * y = x ^ 3 - 3 * x + B := by
  unfold SetBytes at h ⊢
  unfold CheckOnCurve at h ⊢
  simp only [Sqrt_eq] at h ⊢
  split_ifs at h ⊢ with h1 h2 h3
  · left; rfl
  · right
    cases hx : c.SetBytes ((b.take (1 + c.ElementLength)).drop 1) with
    | none => rw [hx] at h; cases h
    | some x =>
      rw [hx] at h
      simp only [] at h ⊢
      cases hy : c.SetBytes (b.drop (1 + c.ElementLength)) with
      | none => rw [hy] at h; cases h
      | some y =>
        rw [hy] at h
        simp only [] at h ⊢
        by_cases heq : Element.Equal (Polynomial B x) (y * y) = 1
        · have hpoly : Polynomial B x = y * y := by
            unfold Element.Equal at heq
            by_contra hne
            rw [if_neg hne] at heq
            exact absurd heq (by decide)
          simp only [heq, ne_eq, not_true_eq_false, if_false]
          exact ⟨x, y, rfl, by rw [← hpoly, Polynomial_eq]⟩
        · simp only [heq, ne_eq, not_false_eq_true, if_true] at h
          cases h
  · right
    cases hx : c.SetBytes (b.drop 1) with
    | none => rw [hx] at h; cases h
    | some x =>
      rw [hx] at h
      simp only [] at h ⊢
      by_cases hsq : cand (Polynomial B x) * cand (Polynomial B x) = Polynomial B x
      · simp only [hsq, if_true]
        refine ⟨x, _, rfl, ?_⟩
        rw [← Polynomial_eq]
        unfold Element.Select
        split_ifs
        · linear_combination hsq
        · exact hsq
      · simp only [hsq, if_false] at h
        cases h

theorem SetBytes_valid (c : ElementCodec F) (B : F) (cand : F → F) (p : Point F)
    (b : List Byte) (h : (SetBytes c B cand p b).failure = none) :
    IsValid B (SetBytes c B cand p b).receiver := by
  rcases SetBytes_success c B cand p b h with h0 | ⟨x, y, hxy, heq⟩
  · rw [h0]; exact IsValid_NewPoint B
  · rw [hxy]; exact IsValid_of_affine heq

end CodecValid

/-! ### No panic in the scalar multipliers -/

/-- `ScalarMult` returns with a nil error on every input. -/
theorem ScalarMult_failure (B : F) (p q : Point F) (scalar : List Byte) :
    (ScalarMult B p q scalar).failure = none := by
  obtain ⟨r, hr⟩ := ScalarMult.loop_ok B (ScalarMult.table B q) scalar 0 (Point.Set NewPoint)
  rw [ScalarMult, hr]

/-- The only failure of `ScalarBaseMult` is the error for a scalar of the wrong length. -/
theorem ScalarBaseMult_failure (B Gx Gy : F) (ElementLength : Nat) (p : Point F)
    (scalar : List Byte) :
    (ScalarBaseMult B Gx Gy ElementLength p scalar).failure = none ∨
      (ScalarBaseMult B Gx Gy ElementLength p scalar).failure
        = some (.err "invalid scalar length") := by
  by_cases h : scalar.length = ElementLength
  · left
    have hlen : (generatorTable B Gx Gy ElementLength).length = 2 * scalar.length := by
      rw [generatorTable, generatorTable.build_length, h, mul_comm]
    obtain ⟨r, hr⟩ := ScalarBaseMult.baseLoop_ok B (generatorTable B Gx Gy ElementLength)
      scalar (Point.Set NewPoint) (le_of_eq hlen.symm)
    have hcall : ScalarBaseMult B Gx Gy ElementLength p scalar = ⟨r, none⟩ := by
      simp only [ScalarBaseMult, h, ne_eq, not_true_eq_false, if_false, hlen]
      rw [h] at hr
      simp only [hr]
    rw [hcall]
  · right
    rw [ScalarBaseMult, if_pos h]

/-- The table indices and window values that `ScalarBaseMult` uses are in range. -/
theorem ScalarBaseMult.calls_bound (B Gx Gy : F) (ElementLength : Nat) (scalar : List Byte) :
    ∀ call ∈ ScalarBaseMult.calls B Gx Gy ElementLength scalar,
      call.2 ≤ 15 ∧ 0 ≤ call.1 ∧ call.1 ≤ 2 * (ElementLength : Int) - 1 := by
  intro call hcall
  unfold ScalarBaseMult.calls at hcall
  by_cases h : scalar.length = ElementLength
  · rw [if_neg (not_not.mpr h)] at hcall
    have hlen : (generatorTable B Gx Gy ElementLength).length = ElementLength * 2 := by
      rw [generatorTable, generatorTable.build_length]
    rcases ScalarBaseMult.baseLoopCalls_bound B _ scalar _ _ [] call hcall with hnil | hb
    · exact absurd hnil (List.not_mem_nil _)
    · obtain ⟨hn, hlo, hhi⟩ := hb
      rw [hlen] at hlo hhi
      rw [h] at hlo
      push_cast at hlo hhi
      exact ⟨hn, by omega, by omega⟩
  · rw [if_pos h] at hcall
    exact absurd hcall (List.not_mem_nil _)

/-- On a scalar of `ElementLength` bytes `ScalarBaseMult` selects twice for every byte. -/
theorem ScalarBaseMult.calls_length (B Gx Gy : F) (ElementLength : Nat) (scalar : List Byte)
    (h : scalar.length = ElementLength) :
    (ScalarBaseMult.calls B Gx Gy ElementLength scalar).length = 2 * ElementLength := by
  have hlen : (generatorTable B Gx Gy ElementLength).length = 2 * scalar.length := by
    rw [generatorTable, generatorTable.build_length, h, mul_comm]
  have key := ScalarBaseMult.baseLoopCalls_length B (generatorTable B Gx Gy ElementLength)
    scalar (Point.Set NewPoint) [] (le_of_eq hlen.symm)
  unfold ScalarBaseMult.calls
  rw [if_neg (not_not.mpr h)]
  simp only [hlen]
  rw [key, h]
  simp

/-! ### Main results -/

/-- C1: for every point `Q` (a valid point: on the curve and not the all-zero triple, as is
every point that the operations of the package produce) and every byte string `s` of any
length, the empty one included, `ScalarMult` returns with a nil error, and the receiver is then
the same projective point as the `k`-fold sum of `Q` under `Add`, where `k` is the big-endian
value of `s`; in particular a scalar encoding 1 yields `Q`. -/
theorem C1_ScalarMult_computes_multiple (B : F) (hB : OddOrder B) (p Q : Point F)
    (hQ : IsValid B Q) (s : List Byte) :
    (ScalarMult B p Q s).failure = none ∧
      SamePoint (ScalarMult B p Q s).receiver (kFold B Q (bytesToNat s)) ∧
      (bytesToNat s = 1 → SamePoint (ScalarMult B p Q s).receiver Q) := by
  obtain ⟨a, ha⟩ := hQ.exists_represents hB
  obtain ⟨hnil, hrep⟩ := ScalarMult_represents hB p ha s
  refine ⟨hnil, hrep.samePoint (Represents.kFold hB ha _), fun h1 => ?_⟩
  rw [h1, one_nsmul] at hrep
  exact hrep.samePoint ha

/-- C1, witness: the point `(0, 1)` of the test curve and the scalar `[3]`. -/
theorem C1_ScalarMult_computes_multiple_witness :
    OddOrder (1 : ZMod 7) ∧ IsValid (1 : ZMod 7) ⟨0, 1, 1⟩ ∧
      ((ScalarMult (1 : ZMod 7) NewPoint ⟨0, 1, 1⟩ [3]).failure = none ∧
        SamePoint (ScalarMult (1 : ZMod 7) NewPoint ⟨0, 1, 1⟩ [3]).receiver
          (kFold 1 ⟨0, 1, 1⟩ (bytesToNat [3])) ∧
        (bytesToNat [3] = 1 →
          SamePoint (ScalarMult (1 : ZMod 7) NewPoint ⟨0, 1, 1⟩ [3]).receiver ⟨0, 1, 1⟩)) :=
  ⟨testCurve_oddOrder, by decide,
    C1_ScalarMult_computes_multiple 1 testCurve_oddOrder NewPoint ⟨0, 1, 1⟩ (by decide) [3]⟩

/-- C2: for every scalar of exactly `ElementLength` bytes, `ScalarBaseMult` and `ScalarMult`
on the generator both return with a nil error, and leave the same projective point in their
receivers. -/
theorem C2_ScalarBaseMult_agrees_with_ScalarMult (B Gx Gy : F) (hB : OddOrder B)
    (hG : Gy ^ 2 = Gx ^ 3 - 3 * Gx + B) (ElementLength : Nat) (p1 p2 : Point F)
    (k : List Byte) (hk : k.length = ElementLength) :
    (ScalarBaseMult B Gx Gy ElementLength p1 k).failure = none ∧
      (ScalarMult B p2 (SetGenerator Gx Gy) k).failure = none ∧
      SamePoint (ScalarBaseMult B Gx Gy ElementLength p1 k).receiver
        (ScalarMult B p2 (SetGenerator Gx Gy) k).receiver := by
  have hg := SetGenerator_represents hB hG
  obtain ⟨h1, hr1⟩ := ScalarBaseMult_represents hB hg ElementLength p1 k hk
  obtain ⟨h2, hr2⟩ := ScalarMult_represents hB p2 hg k
  exact ⟨h1, h2, hr1.samePoint hr2⟩

/-- C2, witness: the generator `(0, 1)` of the test curve, elements of one byte, and the scalar
`[0x35]`. -/
theorem C2_ScalarBaseMult_agrees_with_ScalarMult_witness :
    OddOrder (1 : ZMod 7) ∧ (1 : ZMod 7) ^ 2 = 0 ^ 3 - 3 * 0 + 1 ∧
      ([0x35] : List Byte).length = 1 ∧
      ((ScalarBaseMult (1 : ZMod 7) 0 1 1 NewPoint [0x35]).failure = none ∧
        (ScalarMult (1 : ZMod 7) NewPoint (SetGenerator 0 1) [0x35]).failure = none ∧
        SamePoint (ScalarBaseMult (1 : ZMod 7) 0 1 1 NewPoint [0x35]).receiver
          (ScalarMult (1 : ZMod 7) NewPoint (SetGenerator 0 1) [0x35]).receiver) :=
  ⟨testCurve_oddOrder, by decide, rfl,
    C2_ScalarBaseMult_agrees_with_ScalarMult 1 0 1 testCurve_oddOrder (by decide) 1
      NewPoint NewPoint [0x35] rfl⟩

/-- C3: for every input point, that is every triple that satisfies the projective curve
equation, the identity included, `Double` returns exactly the coordinates `(X3, Y3, Z3)` that
`Add` returns on the pair `(P, P)`. -/
theorem C3_Double_agrees_with_Add (B : F) (P : Point F) (h : OnCurve B P) :
    Double B P = Add B P P :=
  Double_eq_Add_of_onCurve B P h

/-- C3, witness: the point `(0, 1)` of the test curve, whose double is `(4, 5, 1)`. -/
theorem C3_Double_agrees_with_Add_witness :
    OnCurve (1 : ZMod 7) ⟨0, 1, 1⟩ ∧ Double (1 : ZMod 7) ⟨0, 1, 1⟩ = ⟨4, 5, 1⟩ ∧
      Double (1 : ZMod 7) ⟨0, 1, 1⟩ = Add 1 ⟨0, 1, 1⟩ ⟨0, 1, 1⟩ :=
  ⟨by decide, by decide, C3_Double_agrees_with_Add 1 ⟨0, 1, 1⟩ (by decide)⟩

/-- C4: for every valid point `P = (X:Y:Z)` on the curve, `Add(P, Infinity)` with `Infinity`
the constructor's `(0, 1, 0)` is the same projective point as `P`: its `Z` coordinate is zero
exactly when `Z` is, and it has the same affine value `(X/Z, Y/Z)`. -/
theorem C4_Add_infinity (B : F) (hB : OddOrder B) (P : Point F) (hP : IsValid B P) :
    SamePoint (Add B P NewPoint) P ∧
      ((Add B P NewPoint).z = 0 ↔ P.z = 0) ∧
      (Add B P NewPoint).x / (Add B P NewPoint).z = P.x / P.z ∧
      (Add B P NewPoint).y / (Add B P NewPoint).z = P.y / P.z := by
  obtain ⟨a, ha⟩ := hP.exists_represents hB
  have hy : P.y ≠ 0 := ha.coord_y_ne_zero hB
  have hrep : Represents B (Add B P NewPoint) (a + 0) := ha.add hB (Represents.newPoint B)
  rw [add_zero] at hrep
  have hform : Add B P NewPoint = ⟨P.y * P.x, P.y * P.y, P.y * P.z⟩ := by
    rw [Add_swap]
    show Add B ⟨0, 1, 0⟩ P = _
    rw [Add_infinity_left]
    simp
  refine ⟨hrep.samePoint ha, ?_, ?_, ?_⟩
  · rw [hform]
    simp [hy]
  · rw [hform]
    exact mul_div_mul_left _ _ hy
  · rw [hform]
    exact mul_div_mul_left _ _ hy

/-- C4, witness: the point `(0, 1)` of the test curve. -/
theorem C4_Add_infinity_witness :
    OddOrder (1 : ZMod 7) ∧ IsValid (1 : ZMod 7) ⟨0, 1, 1⟩ ∧
      (SamePoint (Add (1 : ZMod 7) ⟨0, 1, 1⟩ NewPoint) ⟨0, 1, 1⟩ ∧
        ((Add (1 : ZMod 7) ⟨0, 1, 1⟩ NewPoint).z = 0 ↔ (⟨0, 1, 1⟩ : Point (ZMod 7)).z = 0) ∧
        (Add (1 : ZMod 7) ⟨0, 1, 1⟩ NewPoint).x / (Add (1 : ZMod 7) ⟨0, 1, 1⟩ NewPoint).z
          = (⟨0, 1, 1⟩ : Point (ZMod 7)).x / (⟨0, 1, 1⟩ : Point (ZMod 7)).z ∧
        (Add (1 : ZMod 7) ⟨0, 1, 1⟩ NewPoint).y / (Add (1 : ZMod 7) ⟨0, 1, 1⟩ NewPoint).z
          = (⟨0, 1, 1⟩ : Point (ZMod 7)).y / (⟨0, 1, 1⟩ : Point (ZMod 7)).z) :=
  ⟨testCurve_oddOrder, by decide,
    C4_Add_infinity 1 testCurve_oddOrder ⟨0, 1, 1⟩ (by decide)⟩

/-- C5: for every valid point `P = (X:Y:Z)` on the curve, `Add(P, -P)` with `-P = (X : -Y : Z)`
has `X3 = 0`, `Z3 = 0` and `Y3 ≠ 0`: it is the point at infinity, which `Bytes` encodes as the
single byte `0x00`. -/
theorem C5_Add_neg [DecidableEq F] (c : ElementCodec F) (B : F) (hB : OddOrder B)
    (P : Point F) (hP : IsValid B P) :
    (Add B P ⟨P.x, -P.y, P.z⟩).x = 0 ∧ (Add B P ⟨P.x, -P.y, P.z⟩).z = 0 ∧
      (Add B P ⟨P.x, -P.y, P.z⟩).y ≠ 0 ∧
      (Add B P ⟨P.x, -P.y, P.z⟩).Bytes c = [0] := by
  obtain ⟨a, ha⟩ := hP.exists_represents hB
  have hrep : Represents B (Add B P ⟨P.x, -P.y, P.z⟩) (a + -a) := ha.add hB ha.neg
  rw [add_neg_cancel] at hrep
  obtain ⟨hx, hy, hz⟩ := hrep
  refine ⟨hx, hz, hy, ?_⟩
  simp [Point.Bytes, Element.IsZero, hz]

/-- C5, witness: the point `(0, 1)` of the test curve, with any element codec. -/
theorem C5_Add_neg_witness :
    OddOrder (1 : ZMod 7) ∧ IsValid (1 : ZMod 7) ⟨0, 1, 1⟩ ∧
      ((Add (1 : ZMod 7) ⟨0, 1, 1⟩ ⟨0, -1, 1⟩).x = 0 ∧
        (Add (1 : ZMod 7) ⟨0, 1, 1⟩ ⟨0, -1, 1⟩).z = 0 ∧
        (Add (1 : ZMod 7) ⟨0, 1, 1⟩ ⟨0, -1, 1⟩).y ≠ 0 ∧
        (Add (1 : ZMod 7) ⟨0, 1, 1⟩ ⟨0, -1, 1⟩).Bytes ⟨1, fun _ => [0], fun _ => none⟩ = [0]) :=
  ⟨testCurve_oddOrder, by decide,
    C5_Add_neg ⟨1, fun _ => [0], fun _ => none⟩ 1 testCurve_oddOrder ⟨0, 1, 1⟩ (by decide)⟩

/-- C6: `Add` is commutative on arbitrary coordinate triples: both orders return the same
coordinates. -/
theorem C6_Add_comm (B : F) (P1 P2 : Point F) : Add B P1 P2 = Add B P2 P1 := by
  simp only [Add, Point.mk.injEq]
  refine ⟨?_, ?_, ?_⟩ <;> ring

/-- C7: uncompressed round trip.  For every point `P` that satisfies the curve equation, the
identity included, `SetBytes(Bytes(P))` succeeds and sets the receiver to `(X/Z, Y/Z, 1)` when
`Z ≠ 0` and to `(0, 1, 0)` when `Z = 0`; consequently the receiver encodes to `Bytes(P)`
again. -/
theorem C7_uncompressed_round_trip [DecidableEq F] (c : ElementCodec F) (hc : c.Lawful)
    (B : F) (cand : F → F) (p P : Point F) (hP : OnCurve B P) :
    (SetBytes c B cand p (P.Bytes c)).failure = none ∧
      (SetBytes c B cand p (P.Bytes c)).receiver =
        (if P.z = 0 then NewPoint else ⟨P.x / P.z, P.y / P.z, 1⟩) ∧
      (SetBytes c B cand p (P.Bytes c)).receiver.Bytes c = P.Bytes c := by
  by_cases hz : P.z = 0
  · rw [Point.Bytes_of_z_eq_zero c hz, SetBytes_infinity, if_pos hz]
    exact ⟨rfl, rfl, Point.Bytes_of_z_eq_zero c rfl⟩
  · rw [Point.Bytes_of_z_ne_zero c hz, SetBytes_uncompressed hc B cand p (hP.affine hz),
      if_neg hz]
    refine ⟨rfl, rfl, ?_⟩
    rw [Point.Bytes_of_z_ne_zero c (P := ⟨P.x / P.z, P.y / P.z, 1⟩) one_ne_zero]
    simp

/-- C7, witness: the point `(0 : 1 : 1)` of the test curve, with the big-endian codec of one
byte. -/
theorem C7_uncompressed_round_trip_witness :
    (bigEndianCodec 7 1).Lawful ∧ OnCurve (1 : ZMod 7) ⟨0, 1, 1⟩ ∧
      ((SetBytes (bigEndianCodec 7 1) 1 (SqrtCandidate 7) NewPoint
          ((⟨0, 1, 1⟩ : Point (ZMod 7)).Bytes (bigEndianCodec 7 1))).failure = none ∧
        (SetBytes (bigEndianCodec 7 1) 1 (SqrtCandidate 7) NewPoint
          ((⟨0, 1, 1⟩ : Point (ZMod 7)).Bytes (bigEndianCodec 7 1))).receiver =
          (if (⟨0, 1, 1⟩ : Point (ZMod 7)).z = 0 then NewPoint
            else ⟨(⟨0, 1, 1⟩ : Point (ZMod 7)).x / (⟨0, 1, 1⟩ : Point (ZMod 7)).z,
              (⟨0, 1, 1⟩ : Point (ZMod 7)).y / (⟨0, 1, 1⟩ : Point (ZMod 7)).z, 1⟩) ∧
        (SetBytes (bigEndianCodec 7 1) 1 (SqrtCandidate 7) NewPoint
          ((⟨0, 1, 1⟩ : Point (ZMod 7)).Bytes (bigEndianCodec 7 1))).receiver.Bytes
            (bigEndianCodec 7 1) = (⟨0, 1, 1⟩ : Point (ZMod 7)).Bytes (bigEndianCodec 7 1)) :=
  ⟨bigEndianCodec_lawful 7 1 (by decide), by decide,
    C7_uncompressed_round_trip (bigEndianCodec 7 1) (bigEndianCodec_lawful 7 1 (by decide)) 1
      (SqrtCandidate 7) NewPoint ⟨0, 1, 1⟩ (by decide)⟩

/-- C8: compressed round trip.  On a curve over the field of `p` elements with `p = 3 mod 4`,
with the square root candidate `x ^ ((p + 1) / 4)`, for every point `P` that satisfies the
curve equation and has `Z ≠ 0`, `SetBytes(BytesCompressed(P))` succeeds and sets the receiver
to `(X/Z, Y/Z, 1)`: the parity select chooses the root `Y/Z` itself. -/
theorem C8_compressed_round_trip (p : Nat) [Fact p.Prime] (hp : p % 4 = 3)
    (c : ElementCodec (ZMod p)) (hc : c.Lawful) (hpar : c.OddParity) (B : ZMod p)
    (r P : Point (ZMod p)) (hP : OnCurve B P) (hz : P.z ≠ 0) :
    SetBytes c B (SqrtCandidate p) r (P.BytesCompressed c) =
      ⟨⟨P.x / P.z, P.y / P.z, 1⟩, none⟩ := by
  have haff := hP.affine hz
  set x := P.x / P.z with hx
  set y := P.y / P.z with hy
  have hpoly : Polynomial B x = y * y := by rw [Polynomial_eq, ← haff]; ring
  obtain ⟨-, htagbit, htag⟩ := compressedTag_val c y
  have hsq : SqrtCandidate p (Polynomial B x) * SqrtCandidate p (Polynomial B x)
      = Polynomial B x := by
    rw [hpoly]
    exact SqrtCandidate_sq hp y
  rw [Point.BytesCompressed_of_z_ne_zero c hz,
    SetBytes_compressed hc B (SqrtCandidate p) r x (compressedTag c y) htag hsq, htagbit]
  have hroot : SqrtCandidate p (Polynomial B x) = y ∨ SqrtCandidate p (Polynomial B x) = -y :=
    mul_self_eq_mul_self_iff.mp (hsq.trans hpoly)
  have hsel : Element.Select (0 - SqrtCandidate p (Polynomial B x))
      (SqrtCandidate p (Polynomial B x))
      (lastBit c (SqrtCandidate p (Polynomial B x)) ^^^ lastBit c y) = y := by
    rcases hroot with h | h
    · rw [h, Nat.xor_self]
      rfl
    · rw [h]
      by_cases hy0 : y = 0
      · rw [hy0, neg_zero, Nat.xor_self]
        rfl
      · have h1 := lastBit_lt_two c (-y)
        have h2 := lastBit_lt_two c y
        have h3 := hpar y hy0
        have hxor : lastBit c (-y) ^^^ lastBit c y = 1 := by
          generalize lastBit c (-y) = a at h1 h3
          generalize lastBit c y = b at h2 h3
          interval_cases a <;> interval_cases b <;> simp_all
        rw [hxor]
        show 0 - -y = y
        ring
  rw [hsel]

/-- C8, witness: the point `(0 : 1 : 1)` of the test curve over the field of 7 elements
(7 = 3 mod 4), with the big-endian codec of one byte. -/
theorem C8_compressed_round_trip_witness :
    7 % 4 = 3 ∧ (bigEndianCodec 7 1).Lawful ∧ (bigEndianCodec 7 1).OddParity ∧
      OnCurve (1 : ZMod 7) ⟨0, 1, 1⟩ ∧ (⟨0, 1, 1⟩ : Point (ZMod 7)).z ≠ 0 ∧
      SetBytes (bigEndianCodec 7 1) 1 (SqrtCandidate 7) NewPoint
          ((⟨0, 1, 1⟩ : Point (ZMod 7)).BytesCompressed (bigEndianCodec 7 1)) =
        ⟨⟨(⟨0, 1, 1⟩ : Point (ZMod 7)).x / (⟨0, 1, 1⟩ : Point (ZMod 7)).z,
          (⟨0, 1, 1⟩ : Point (ZMod 7)).y / (⟨0, 1, 1⟩ : Point (ZMod 7)).z, 1⟩, none⟩ :=
  ⟨rfl, bigEndianCodec_lawful 7 1 (by decide), bigEndianCodec_oddParity 7 1 rfl (by decide),
    by decide, by decide,
    C8_compressed_round_trip 7 rfl (bigEndianCodec 7 1) (bigEndianCodec_lawful 7 1 (by decide))
      (bigEndianCodec_oddParity 7 1 rfl (by decide)) 1 NewPoint ⟨0, 1, 1⟩ (by decide)
      (by decide)⟩

/-- C9: wire format of the encoders.  For a point with `Z = 0`, `Bytes` and `BytesCompressed`
both return the single byte `0x00`; for a point with `Z ≠ 0`, `Bytes` returns the `1 + 2L`
bytes `0x04 || x || y` and `BytesCompressed` the `1 + L` bytes `(0x02 | lsb(y)) || x`, where
`x = X/Z` and `y = Y/Z` are written by the element codec in `L` bytes and `lsb(y)` is the low
bit of the last byte of `y`. -/
theorem C9_wire_format [DecidableEq F] (c : ElementCodec F) (hc : c.Lawful) (P : Point F) :
    (P.z = 0 → P.Bytes c = [0] ∧ P.BytesCompressed c = [0]) ∧
      (P.z ≠ 0 →
        P.Bytes c = 4 :: (c.Bytes (P.x / P.z) ++ c.Bytes (P.y / P.z)) ∧
        (P.Bytes c).length = 1 + 2 * c.ElementLength ∧
        ∃ tag : Byte,
          tag.val = 2 ||| (((c.Bytes (P.y / P.z)).getD (c.ElementLength - 1) 0).val &&& 1) ∧
          (tag = 2 ∨ tag = 3) ∧
          P.BytesCompressed c = tag :: c.Bytes (P.x / P.z) ∧
          (P.BytesCompressed c).length = 1 + c.ElementLength) := by
  refine ⟨fun hz => ⟨Point.Bytes_of_z_eq_zero c hz, Point.BytesCompressed_of_z_eq_zero c hz⟩,
    fun hz => ?_⟩
  obtain ⟨htag, -, h23⟩ := compressedTag_val c (P.y / P.z)
  refine ⟨Point.Bytes_of_z_ne_zero c hz, ?_, compressedTag c (P.y / P.z), htag, h23,
    Point.BytesCompressed_of_z_ne_zero c hz, ?_⟩
  · rw [Point.Bytes_of_z_ne_zero c hz]
    simp [hc.length_Bytes]
    omega
  · rw [Point.BytesCompressed_of_z_ne_zero c hz]
    simp [hc.length_Bytes]
    omega

/-- C9, witness: the big-endian codec of one byte on the field of 7 elements, and the point
`(0 : 1 : 1)`. -/
theorem C9_wire_format_witness :
    (bigEndianCodec 7 1).Lawful ∧
      (⟨0, 1, 1⟩ : Point (ZMod 7)).Bytes (bigEndianCodec 7 1) =
        4 :: ((bigEndianCodec 7 1).Bytes (0 / 1) ++ (bigEndianCodec 7 1).Bytes (1 / 1)) :=
  ⟨bigEndianCodec_lawful 7 1 (by decide),
    ((C9_wire_format (bigEndianCodec 7 1) (bigEndianCodec_lawful 7 1 (by decide))
      ⟨0, 1, 1⟩).2 (by decide)).1⟩

/-- C10: `SetBytes` accepts exactly three shapes of byte strings: on every `b` that is none of
(length 1 with `b[0] = 0x00`), (length `1 + 2L` with `b[0] = 0x04`), (length `1 + L` with
`b[0]` in `{0x02, 0x03}`) it returns nil and the malformed-encoding error, the receiver being
as before; and on `[0x00]` it succeeds and sets the receiver to the identity `(0, 1, 0)`. -/
theorem C10_SetBytes_shapes [DecidableEq F] (c : ElementCodec F) (B : F) (cand : F → F)
    (p : Point F) (b : List Byte)
    (h1 : ¬ (b.length = 1 ∧ b.head? = some 0))
    (h2 : ¬ (b.length = 1 + 2 * c.ElementLength ∧ b.head? = some 4))
    (h3 : ¬ (b.length = 1 + c.ElementLength ∧ (b.head? = some 2 ∨ b.head? = some 3))) :
    SetBytes c B cand p b = ⟨p, some (.err "invalid point encoding")⟩ ∧
      SetBytes c B cand p [0] = ⟨NewPoint, none⟩ :=
  ⟨SetBytes_malformed c B cand p b h1 h2 h3, SetBytes_infinity c B cand p⟩

/-- C10, witness: the string `[0x05]`, with the big-endian codec of one byte on the field of
7 elements. -/
theorem C10_SetBytes_shapes_witness :
    ¬ (([5] : List Byte).length = 1 ∧ ([5] : List Byte).head? = some 0) ∧
      ¬ (([5] : List Byte).length = 1 + 2 * (bigEndianCodec 7 1).ElementLength ∧
        ([5] : List Byte).head? = some 4) ∧
      ¬ (([5] : List Byte).length = 1 + (bigEndianCodec 7 1).ElementLength ∧
        (([5] : List Byte).head? = some 2 ∨ ([5] : List Byte).head? = some 3)) ∧
      (SetBytes (bigEndianCodec 7 1) 1 (SqrtCandidate 7) NewPoint [5] =
          ⟨NewPoint, some (.err "invalid point encoding")⟩ ∧
        SetBytes (bigEndianCodec 7 1) 1 (SqrtCandidate 7) NewPoint [0] = ⟨NewPoint, none⟩) :=
  ⟨by decide, by decide, by decide,
    C10_SetBytes_shapes (bigEndianCodec 7 1) 1 (SqrtCandidate 7) NewPoint [5] (by decide)
      (by decide) (by decide)⟩

/-- C11: `SetBytes` is atomic on failure.  For every receiver `p` and every byte string `b` on
which `SetBytes` returns an error (bad length or tag, non-canonical field element, point not on
the curve, no square root during decompression), the coordinates of `p` after the call are
those before the call. -/
theorem C11_SetBytes_atomic [DecidableEq F] (c : ElementCodec F) (B : F) (cand : F → F)
    (p : Point F) (b : List Byte) (e : Failure)
    (h : (SetBytes c B cand p b).failure = some e) :
    (SetBytes c B cand p b).receiver = p ∧
      (e = .err "invalid point encoding" ∨ e = .err "invalid element encoding" ∨
        e = .err "point not on curve" ∨ e = .err "invalid compressed point encoding") :=
  SetBytes_failure c B cand p b e h

/-- C11, witness: the string `[0x05]` and the receiver `(0 : 1 : 1)`, with the big-endian codec
of one byte on the field of 7 elements. -/
theorem C11_SetBytes_atomic_witness :
    (SetBytes (bigEndianCodec 7 1) 1 (SqrtCandidate 7) ⟨0, 1, 1⟩ [5]).failure =
        some (.err "invalid point encoding") ∧
      ((SetBytes (bigEndianCodec 7 1) 1 (SqrtCandidate 7) ⟨0, 1, 1⟩ [5]).receiver = ⟨0, 1, 1⟩ ∧
        ((Failure.err "invalid point encoding") = .err "invalid point encoding" ∨
          (Failure.err "invalid point encoding") = .err "invalid element encoding" ∨
          (Failure.err "invalid point encoding") = .err "point not on curve" ∨
          (Failure.err "invalid point encoding") = .err "invalid compressed point encoding")) :=
  ⟨by decide,
    C11_SetBytes_atomic (bigEndianCodec 7 1) 1 (SqrtCandidate 7) ⟨0, 1, 1⟩ [5] _ (by decide)⟩

/-- C12: for every compressed encoding `b` (length `1 + L`, tag `0x02` or `0x03`) on which
`SetBytes` succeeds, the decoded point is `(x, y, 1)` with `x` the element that `b[1:]`
encodes, `y² = x³ - 3x + B`, and the parity of `y` (the low bit of the last byte of its
encoding) equal to the low bit of the tag `b[0]`. -/
theorem C12_compressed_decode [DecidableEq F] (c : ElementCodec F) (hpar : c.OddParity)
    (B : F) (hB : OddOrder B) (cand : F → F) (p : Point F) (b : List Byte)
    (hlen : b.length = 1 + c.ElementLength) (htag : b.head? = some 2 ∨ b.head? = some 3)
    (hok : (SetBytes c B cand p b).failure = none) :
    ∃ x y : F, (SetBytes c B cand p b).receiver = ⟨x, y, 1⟩ ∧
      c.SetBytes (b.drop 1) = some x ∧ y ^ 2 = x ^ 3 - 3 * x + B ∧
      lastBit c y = (b.headD 0).val &&& 1 := by
  rw [SetBytes_compressed_shape c B cand p b hlen htag] at hok ⊢
  cases hx : c.SetBytes (b.drop 1) with
  | none =>
    rw [hx] at hok
    exact absurd hok (by simp)
  | some x =>
    rw [hx] at hok
    simp only at hok ⊢
    by_cases hsq : cand (Polynomial B x) * cand (Polynomial B x) = Polynomial B x
    · rw [if_pos hsq]
      refine ⟨x, _, rfl, rfl, ?_⟩
      rw [Polynomial_eq B x] at hsq ⊢
      generalize cand (x ^ 3 - 3 * x + B) = cn at hsq ⊢
      have hl := lastBit_lt_two c cn
      have ht : (b.headD 0).val &&& 1 < 2 := by
        rw [Nat.and_one_is_mod]; exact Nat.mod_lt _ (by decide)
      by_cases heq : lastBit c cn = (b.headD 0).val &&& 1
      · rw [heq, Nat.xor_self]
        refine ⟨?_, heq⟩
        show cn ^ 2 = _
        rw [← hsq]; ring
      · have hne : cn ≠ 0 := by
          intro h0
          apply hB.no_root x
          rw [← hsq, h0]; ring
        have hp := hpar _ hne
        have hl2 := lastBit_lt_two c (-cn)
        have hxor : lastBit c cn ^^^ ((b.headD 0).val &&& 1) = 1 := by
          generalize lastBit c cn = u at hl heq
          generalize (b.headD 0).val &&& 1 = v at ht heq
          interval_cases u <;> interval_cases v <;> simp_all
        rw [hxor]
        have hsel : Element.Select (0 - cn) cn 1 = -cn := by
          show 0 - cn = _
          ring
        rw [hsel]
        refine ⟨?_, ?_⟩
        · rw [← hsq]; ring
        · generalize lastBit c cn = u at hl heq hp
          generalize lastBit c (-cn) = w at hl2 hp
          generalize (b.headD 0).val &&& 1 = v at ht heq
          interval_cases u <;> interval_cases v <;> interval_cases w <;> simp_all
    · rw [if_neg hsq] at hok
      exact absurd hok (by simp)

/-- C12, witness: the string `[0x02, 0x00]` on the test curve, with the big-endian codec of one
byte: it decodes to `(0, 6, 1)`. -/
theorem C12_compressed_decode_witness :
    (bigEndianCodec 7 1).OddParity ∧ OddOrder (1 : ZMod 7) ∧
      ([2, 0] : List Byte).length = 1 + (bigEndianCodec 7 1).ElementLength ∧
      (([2, 0] : List Byte).head? = some 2 ∨ ([2, 0] : List Byte).head? = some 3) ∧
      (SetBytes (bigEndianCodec 7 1) 1 (SqrtCandidate 7) NewPoint [2, 0]).failure = none ∧
      ∃ x y : ZMod 7,
        (SetBytes (bigEndianCodec 7 1) 1 (SqrtCandidate 7) NewPoint [2, 0]).receiver
          = ⟨x, y, 1⟩ ∧
        (bigEndianCodec 7 1).SetBytes (([2, 0] : List Byte).drop 1) = some x ∧
        y ^ 2 = x ^ 3 - 3 * x + 1 ∧
        lastBit (bigEndianCodec 7 1) y = (([2, 0] : List Byte).headD 0).val &&& 1 :=
  ⟨bigEndianCodec_oddParity 7 1 rfl (by decide), testCurve_oddOrder, rfl, Or.inl rfl,
    by decide,
    C12_compressed_decode (bigEndianCodec 7 1) (bigEndianCodec_oddParity 7 1 rfl (by decide))
      1 testCurve_oddOrder (SqrtCandidate 7) NewPoint [2, 0] rfl (Or.inl rfl) (by decide)⟩

/-- C13: `BytesX` returns an error if and only if the point is the point at infinity
(`Z = 0`); for every point with `Z ≠ 0` it returns, with a nil error, the encoding of the
affine x-coordinate `X/Z`, of `L` bytes. -/
theorem C13_BytesX [DecidableEq F] (c : ElementCodec F) (hc : c.Lawful) (P : Point F) :
    ((∃ e, P.BytesX c = .error e) ↔ P.z = 0) ∧
      (P.z ≠ 0 → P.BytesX c = .ok (c.Bytes (P.x / P.z)) ∧
        (c.Bytes (P.x / P.z)).length = c.ElementLength) := by
  refine ⟨⟨fun ⟨e, he⟩ => ?_, fun hz => ⟨_, Point.BytesX_of_z_eq_zero c hz⟩⟩,
    fun hz => ⟨Point.BytesX_of_z_ne_zero c hz, hc.length_Bytes _⟩⟩
  by_contra hz
  rw [Point.BytesX_of_z_ne_zero c hz] at he
  exact absurd he (by simp)

/-- C13, witness: the big-endian codec of one byte on the field of 7 elements and the point
`(0 : 1 : 1)`. -/
theorem C13_BytesX_witness :
    (bigEndianCodec 7 1).Lawful ∧
      ((∃ e, (⟨0, 1, 1⟩ : Point (ZMod 7)).BytesX (bigEndianCodec 7 1) = .error e) ↔
        (⟨0, 1, 1⟩ : Point (ZMod 7)).z = 0) :=
  ⟨bigEndianCodec_lawful 7 1 (by decide),
    (C13_BytesX (bigEndianCodec 7 1) (bigEndianCodec_lawful 7 1 (by decide)) ⟨0, 1, 1⟩).1⟩

/-- C14: for every table of 15 points, `Select(p, 0)` sets `p` to the identity `(0, 1, 0)`;
for `n` in `1..15` it sets `p` to the stored entry `table[n-1]`; and for `n ≥ 16` it takes the
panic path and produces no result. -/
theorem C14_Table_Select (table : Table F) :
    table.Select 0 = .ok NewPoint ∧
      (∀ j : Fin 15, table.Select (j.val + 1) = .ok (table j)) ∧
      (∀ n : Nat, 16 ≤ n → ∃ msg, table.Select n = .error (.fatal msg)) :=
  ⟨Table.Select_zero table, Table.Select_succ table, Table.Select_fatal table⟩

/-- C14, witness: the table of the identity on the field of 7 elements, and `n = 16`. -/
theorem C14_Table_Select_witness :
    ∃ msg, Table.Select (fun _ => (NewPoint : Point (ZMod 7))) 16 = .error (.fatal msg) :=
  (C14_Table_Select (fun _ => (NewPoint : Point (ZMod 7)))).2.2 16 (le_refl 16)

/-- C15: `ScalarBaseMult` returns the invalid-scalar-length error if and only if
`len(scalar) ≠ L`; in that case it returns nil and leaves the receiver unchanged; and for every
scalar of exactly `L` bytes it returns the receiver with a nil error. -/
theorem C15_ScalarBaseMult_length (B Gx Gy : F) (ElementLength : Nat) (p : Point F)
    (scalar : List Byte) :
    ((ScalarBaseMult B Gx Gy ElementLength p scalar).failure
        = some (.err "invalid scalar length") ↔ scalar.length ≠ ElementLength) ∧
      (scalar.length ≠ ElementLength →
        ScalarBaseMult B Gx Gy ElementLength p scalar
          = ⟨p, some (.err "invalid scalar length")⟩) ∧
      (scalar.length = ElementLength →
        (ScalarBaseMult B Gx Gy ElementLength p scalar).failure = none) := by
  have hbad : scalar.length ≠ ElementLength →
      ScalarBaseMult B Gx Gy ElementLength p scalar
        = ⟨p, some (.err "invalid scalar length")⟩ := by
    intro h
    rw [ScalarBaseMult, if_pos h]
  have hgood : scalar.length = ElementLength →
      (ScalarBaseMult B Gx Gy ElementLength p scalar).failure = none := by
    intro h
    have hlen : (generatorTable B Gx Gy ElementLength).length = 2 * scalar.length := by
      rw [generatorTable, generatorTable.build_length, h, mul_comm]
    obtain ⟨r, hr⟩ := ScalarBaseMult.baseLoop_ok B (generatorTable B Gx Gy ElementLength)
      scalar (Point.Set NewPoint) (le_of_eq hlen.symm)
    have hcall : ScalarBaseMult B Gx Gy ElementLength p scalar = ⟨r, none⟩ := by
      simp only [ScalarBaseMult, h, ne_eq, not_true_eq_false, if_false, hlen]
      rw [h] at hr
      simp only [hr]
    rw [hcall]
  refine ⟨⟨fun h => ?_, fun h => by rw [hbad h]⟩, hbad, hgood⟩
  intro heq
  rw [hgood heq] at h
  exact absurd h (by simp)

/-- C15, witness: a scalar of two bytes where elements have one byte, on the test curve. -/
theorem C15_ScalarBaseMult_length_witness :
    ([1, 2] : List Byte).length ≠ 1 ∧
      ScalarBaseMult (1 : ZMod 7) 0 1 1 ⟨0, 1, 1⟩ [1, 2]
        = ⟨⟨0, 1, 1⟩, some (.err "invalid scalar length")⟩ :=
  ⟨by decide,
    (C15_ScalarBaseMult_length (1 : ZMod 7) 0 1 1 ⟨0, 1, 1⟩ [1, 2]).2.1 (by decide)⟩

/-- C16: for all field elements `e` and `x`, `Sqrt(e, x)` returns true exactly when the square
of the candidate computed from `x` equals `x`; when it returns true, `e` is set to that
candidate, so `e² = x`; when it returns false, `e` is left unchanged, also when `e` and `x`
are the same element. -/
theorem C16_Sqrt [DecidableEq F] (cand : F → F) (e x : F) :
    ((Sqrt cand e x).2 = true ↔ cand x * cand x = x) ∧
      ((Sqrt cand e x).2 = true →
        (Sqrt cand e x).1 = cand x ∧ (Sqrt cand e x).1 * (Sqrt cand e x).1 = x) ∧
      ((Sqrt cand e x).2 = false → (Sqrt cand e x).1 = e) ∧
      ((Sqrt cand x x).2 = false → (Sqrt cand x x).1 = x) := by
  rw [Sqrt_eq, Sqrt_eq]
  by_cases h : cand x * cand x = x
  · simp [h]
  · simp [h]

/-- C16, witness: in the field of 7 elements with the candidate `x ^ 2`, the non-square 3 and
`e = 5`. -/
theorem C16_Sqrt_witness :
    (Sqrt (SqrtCandidate 7) 5 3).2 = false ∧ (Sqrt (SqrtCandidate 7) 5 3).1 = 5 :=
  ⟨by decide, (C16_Sqrt (SqrtCandidate 7) 5 3).2.2.1 (by decide)⟩

/-- C17: for a field prime `p = 3 mod 4` and the candidate `x ^ ((p + 1) / 4)`, `Sqrt` reports
success if and only if `x` is a square mod `p` (zero included); so it fails on every
non-residue, leaving `e` unchanged, and for every `s` it returns on input `s²` a value that
squares back to `s²`. -/
theorem C17_Sqrt_complete (p : Nat) [Fact p.Prime] (hp : p % 4 = 3) (e x : ZMod p) :
    ((Sqrt (SqrtCandidate p) e x).2 = true ↔ IsSquare x) ∧
      (¬ IsSquare x → Sqrt (SqrtCandidate p) e x = (e, false)) ∧
      (∀ s : ZMod p, (Sqrt (SqrtCandidate p) e (s * s)).2 = true ∧
        (Sqrt (SqrtCandidate p) e (s * s)).1 * (Sqrt (SqrtCandidate p) e (s * s)).1 = s * s) := by
  have hiff : SqrtCandidate p x * SqrtCandidate p x = x ↔ IsSquare x := by
    constructor
    · intro h
      exact ⟨SqrtCandidate p x, h.symm⟩
    · rintro ⟨s, rfl⟩
      exact SqrtCandidate_sq hp s
  refine ⟨?_, ?_, ?_⟩
  · rw [Sqrt_eq, ← hiff]
    by_cases h : SqrtCandidate p x * SqrtCandidate p x = x
    · simp [h]
    · simp [h]
  · intro hns
    rw [Sqrt_eq, if_neg (fun h => hns (hiff.mp h))]
  · intro s
    rw [Sqrt_eq, if_pos (SqrtCandidate_sq hp s)]
    exact ⟨rfl, SqrtCandidate_sq hp s⟩

/-- C17, witness: the field of 7 elements, `e = 5` and `x = 2 = 3²`. -/
theorem C17_Sqrt_complete_witness :
    7 % 4 = 3 ∧ ((Sqrt (SqrtCandidate 7) 5 2).2 = true ↔ IsSquare (2 : ZMod 7)) :=
  ⟨rfl, (C17_Sqrt_complete 7 rfl 5 2).1⟩

/-- C18 (as amended): the generator table built by `generatorTable` is a sequence of `2L`
tables in which, for every index `i` in `0..2L-1`, position `j` of entry `i` holds `j + 1`
times the generator scaled by `16 ^ i`; so the base point of entry `i` (position 0) is the
generator scaled by `16 ^ i`, and the first entry starts with the generator itself. -/
theorem C18_generatorTable (B Gx Gy : F) (hB : OddOrder B)
    (hG : Gy ^ 2 = Gx ^ 3 - 3 * Gx + B) (ElementLength : Nat) :
    (generatorTable B Gx Gy ElementLength).length = 2 * ElementLength ∧
      (∀ i : Nat, i < 2 * ElementLength →
        ∃ table, (generatorTable B Gx Gy ElementLength).get? i = some table ∧
          SamePoint (table 0) (kFold B (SetGenerator Gx Gy) (16 ^ i)) ∧
          ∀ j : Fin 15,
            SamePoint (table j) (kFold B (SetGenerator Gx Gy) ((j.val + 1) * 16 ^ i))) ∧
      (0 < ElementLength →
        ∃ table, (generatorTable B Gx Gy ElementLength).get? 0 = some table ∧
          table 0 = SetGenerator Gx Gy) := by
  refine ⟨?_, fun i hi => ?_, fun h => ?_⟩
  · rw [generatorTable, generatorTable.build_length, mul_comm]
  · obtain ⟨table, hget, hall⟩ := generatorTable_samePoint hB hG ElementLength i hi
    refine ⟨table, hget, ?_, hall⟩
    have h0 := hall 0
    simpa using h0
  · exact ⟨_, generatorTable_first B Gx Gy ElementLength h,
      (generatorTable.row_spec B (SetGenerator Gx Gy)).1⟩

/-- C18, witness: the generator `(0, 1)` of the test curve, with elements of one byte. -/
theorem C18_generatorTable_witness :
    OddOrder (1 : ZMod 7) ∧ (1 : ZMod 7) ^ 2 = 0 ^ 3 - 3 * 0 + 1 ∧
      (generatorTable (1 : ZMod 7) 0 1 1).length = 2 * 1 :=
  ⟨testCurve_oddOrder, by decide,
    (C18_generatorTable (1 : ZMod 7) 0 1 testCurve_oddOrder (by decide) 1).1⟩

/-- C18, counterexample: on the curve `y² = x³ - 3x + 6` over the field with 7 elements, of 11
points, with generator `(1, 2)` and elements of one byte, entry 0 of the generator table
starts with the generator `(1 : 2 : 1)` itself, which is not the generator scaled by
`16 ^ (2L - 1 - 0) = 16`, the point `(5 : 5 : 3)`. -/
theorem C18_first_entry_is_generator :
    ∃ table, (generatorTable (6 : ZMod 7) 1 2 1).get? 0 = some table ∧
      table 0 = ⟨1, 2, 1⟩ ∧
      kFold (6 : ZMod 7) (SetGenerator 1 2) (16 ^ (2 * 1 - 1 - 0)) = ⟨5, 5, 3⟩ ∧
      ¬ SamePoint (table 0) (kFold (6 : ZMod 7) (SetGenerator 1 2) (16 ^ (2 * 1 - 1 - 0))) := by
  refine ⟨_, generatorTable_first (6 : ZMod 7) 1 2 1 (by decide),
    (generatorTable.row_spec (6 : ZMod 7) (SetGenerator 1 2)).1, kFold_sixteen_order_eleven, ?_⟩
  rw [(generatorTable.row_spec (6 : ZMod 7) (SetGenerator 1 2)).1]
  have h16 : kFold (6 : ZMod 7) (SetGenerator 1 2) (16 ^ (2 * 1 - 1 - 0)) = ⟨5, 5, 3⟩ :=
    kFold_sixteen_order_eleven
  rw [h16]
  decide

/-- C19: the sequence of group operations executed by `ScalarMult` depends only on the byte
length of the scalar.  The instrumented run returns what `ScalarMult` returns; for every point
`Q` and any two scalars of the same length `n` it makes the same sequence of calls of `Double`,
`Add` and `Table.Select`; and that sequence is the 7 doublings and 7 additions of the table
build followed, for `n ≥ 1`, by exactly `8n - 4` doublings, `2n` additions and `2n`
selections. -/
theorem C19_ScalarMult_calls (B : F) (p Q : Point F) (s1 s2 : List Byte)
    (h : s1.length = s2.length) :
    (ScalarMultTraced B p Q s1).1 = ScalarMult B p Q s1 ∧
      (ScalarMultTraced B p Q s1).2 = (ScalarMultTraced B p Q s2).2 ∧
      (ScalarMultTraced B p Q s1).2 = ScalarMult.tableOps ++ ScalarMult.loopOps 0 s1.length ∧
      ScalarMult.tableOps.count Op.double = 7 ∧ ScalarMult.tableOps.count Op.add = 7 ∧
      ScalarMult.tableOps.count Op.select = 0 ∧
      (1 ≤ s1.length →
        (ScalarMult.loopOps 0 s1.length).count Op.double = 8 * s1.length - 4 ∧
        (ScalarMult.loopOps 0 s1.length).count Op.add = 2 * s1.length ∧
        (ScalarMult.loopOps 0 s1.length).count Op.select = 2 * s1.length) := by
  rw [ScalarMultTraced_eq, ScalarMultTraced_eq, h]
  refine ⟨rfl, rfl, rfl, by decide, by decide, by decide, fun hn => ?_⟩
  obtain ⟨h1, h2, h3⟩ := ScalarMult.loopOps_count s2.length 0
  rw [if_pos ⟨rfl, by omega⟩] at h3
  exact ⟨by omega, h1, h2⟩

/-- C19, witness: the scalars `[0x00]` and `[0xff]` on the test curve. -/
theorem C19_ScalarMult_calls_witness :
    ([0] : List Byte).length = ([255] : List Byte).length ∧
      (ScalarMultTraced (1 : ZMod 7) NewPoint ⟨0, 1, 1⟩ [0]).2
        = (ScalarMultTraced (1 : ZMod 7) NewPoint ⟨0, 1, 1⟩ [255]).2 :=
  ⟨rfl, (C19_ScalarMult_calls (1 : ZMod 7) NewPoint ⟨0, 1, 1⟩ [0] [255] rfl).2.1⟩

/-- C20: for every point `P` and every scalar that consists of zero bytes only (of any length,
the empty scalar included), `ScalarMult` returns with a nil error and sets the receiver to the
point at infinity in the constructor's representation `(0, 1, 0)`. -/
theorem C20_ScalarMult_zero (B : F) (p P : Point F) (scalar : List Byte)
    (h : ∀ byte ∈ scalar, byte = 0) :
    ScalarMult B p P scalar = ⟨NewPoint, none⟩ := by
  have hl := ScalarMult.loop_zero B (ScalarMult.table B P) scalar 0 h
  rw [ScalarMult, Point.Set_eq, hl]

/-- C20, witness: the scalar `[0x00, 0x00]` and the triple `(1, 1, 1)`, which is not on the test
curve. -/
theorem C20_ScalarMult_zero_witness :
    (∀ byte ∈ ([0, 0] : List Byte), byte = 0) ∧
      ScalarMult (1 : ZMod 7) ⟨3, 4, 5⟩ ⟨1, 1, 1⟩ [0, 0] = ⟨NewPoint, none⟩ :=
  ⟨by simp, C20_ScalarMult_zero (1 : ZMod 7) ⟨3, 4, 5⟩ ⟨1, 1, 1⟩ [0, 0] (by simp)⟩

/-- C21: validity is an invariant of the point operations, where a point is valid when its
coordinates satisfy the projective curve equation and are not all zero.  The constructor's
`(0, 1, 0)` is valid; every `SetBytes` that returns a nil error leaves a valid point in the
receiver; `Add`, `Double` and `Select` return a valid point when their point inputs are valid;
and `Table.Select` on a table of valid points returns a valid point for every `n < 16` (for
larger `n` it returns nothing). -/
theorem C21_validity_invariant [DecidableEq F] (c : ElementCodec F) (cand : F → F) (B : F)
    (hB : OddOrder B) :
    IsValid B (NewPoint : Point F) ∧
      (∀ (p : Point F) (b : List Byte), (SetBytes c B cand p b).failure = none →
        IsValid B (SetBytes c B cand p b).receiver) ∧
      (∀ P Q : Point F, IsValid B P → IsValid B Q → IsValid B (Add B P Q)) ∧
      (∀ P : Point F, IsValid B P → IsValid B (Double B P)) ∧
      (∀ (p1 p2 : Point F) (cond : Nat), IsValid B p1 → IsValid B p2 →
        IsValid B (Point.Select p1 p2 cond)) ∧
      (∀ table : Table F, (∀ j : Fin 15, IsValid B (table j)) →
        (∀ n : Nat, n < 16 → ∃ t, table.Select n = .ok t ∧ IsValid B t) ∧
        (∀ (n : Nat) (t : Point F), table.Select n = .ok t → IsValid B t)) := by
  refine ⟨IsValid_NewPoint B, SetBytes_valid c B cand, fun P Q hP hQ => IsValid_Add hB hP hQ,
    fun P hP => IsValid_Double hB hP, fun p1 p2 cond h1 h2 => IsValid_Select h1 h2 cond,
    fun table ht => ⟨fun n hn => ?_, fun n t h => IsValid_Table_Select ht h⟩⟩
  obtain ⟨t, h⟩ := Table.Select_ok table hn
  exact ⟨t, h, IsValid_Table_Select ht h⟩

/-- C21, witness: on the test curve, `Add` of the valid points `(0, 1)` and `(0, 6)`, which are
opposite, is valid. -/
theorem C21_validity_invariant_witness :
    OddOrder (1 : ZMod 7) ∧ IsValid (1 : ZMod 7) ⟨0, 1, 1⟩ ∧ IsValid (1 : ZMod 7) ⟨0, 6, 1⟩ ∧
      IsValid (1 : ZMod 7) (Add 1 ⟨0, 1, 1⟩ ⟨0, 6, 1⟩) :=
  ⟨testCurve_oddOrder, by decide, by decide,
    (C21_validity_invariant (bigEndianCodec 7 1) (SqrtCandidate 7) (1 : ZMod 7)
      testCurve_oddOrder).2.2.1 ⟨0, 1, 1⟩ ⟨0, 6, 1⟩ (by decide) (by decide)⟩

/-- C22: the table built at the start of `ScalarMult` has `table[0] = Q`, and for each odd
`i = 2k + 1` in `1, 3, ..., 13`, `table[i] = Double(table[(i-1)/2])` and
`table[i+1] = Add(table[i], Q)`; building it takes exactly 7 doublings and 7 additions, in
alternation; and as a result, for an input point `Q` (a valid point, as is every point that the
operations of the package produce), `table[i]` is a valid point and the same projective point
as the `(i+1)`-fold sum of `Q` under `Add`, for every `i` in `0..14`. -/
theorem C22_ScalarMult_table (B : F) (Q : Point F) :
    ScalarMult.table B Q 0 = Q ∧
      (∀ k : Fin 7,
        ScalarMult.table B Q ⟨2 * k.val + 1, by omega⟩ =
            Double B (ScalarMult.table B Q ⟨k.val, by omega⟩) ∧
          ScalarMult.table B Q ⟨2 * k.val + 2, by omega⟩ =
            Add B (ScalarMult.table B Q ⟨2 * k.val + 1, by omega⟩) Q) ∧
      ScalarMult.tableTraced B Q = (ScalarMult.table B Q, ScalarMult.tableOps) ∧
      ScalarMult.tableOps.length = 14 ∧
      ScalarMult.tableOps.count Op.double = 7 ∧ ScalarMult.tableOps.count Op.add = 7 ∧
      (OddOrder B → IsValid B Q →
        ∀ j : Fin 15, IsValid B (ScalarMult.table B Q j) ∧
          SamePoint (ScalarMult.table B Q j) (kFold B Q (j.val + 1))) := by
  obtain ⟨h0, hk⟩ := ScalarMult.table_spec B Q
  refine ⟨h0, hk, ScalarMult.tableTraced_eq B Q, by decide, by decide, by decide,
    fun hB hQ j => ?_⟩
  obtain ⟨a, ha⟩ := hQ.exists_represents hB
  have hj := ScalarMult.table_represents hB ha j
  exact ⟨hj.isValid, hj.samePoint (Represents.kFold hB ha _)⟩

/-- C22, witness: the point `(0, 1)` of the test curve. -/
theorem C22_ScalarMult_table_witness :
    OddOrder (1 : ZMod 7) ∧ IsValid (1 : ZMod 7) ⟨0, 1, 1⟩ ∧
      ∀ j : Fin 15, IsValid (1 : ZMod 7) (ScalarMult.table 1 ⟨0, 1, 1⟩ j) ∧
        SamePoint (ScalarMult.table (1 : ZMod 7) ⟨0, 1, 1⟩ j) (kFold 1 ⟨0, 1, 1⟩ (j.val + 1)) :=
  ⟨testCurve_oddOrder, by decide,
    (C22_ScalarMult_table (1 : ZMod 7) ⟨0, 1, 1⟩).2.2.2.2.2.2 testCurve_oddOrder (by decide)⟩

/-- C23: the out-of-range panic of `Table.Select` is unreachable from the scalar multipliers.
For every curve, points and scalar: the instrumented loops return what the loops of `ScalarMult`
and `ScalarBaseMult` return; the values that `ScalarMult` passes to `Table.Select` are the high
nibble `byte >> 4` and the low nibble `byte & 0x0F` of each byte in turn, each at most 15;
`ScalarMult` never fails; every pair of a table index used and a window value passed by
`ScalarBaseMult` has the value at most 15 and the index in `0..2L-1`; on a scalar of `L` bytes
there are `2L` such pairs; and `ScalarBaseMult` fails with the length error or not at all, never
with a panic. -/
theorem C23_Table_Select_in_range (B Gx Gy : F) (L : Nat) (p q : Point F)
    (scalar : List Byte) :
    ((ScalarMult.loopCalls B (ScalarMult.table B q) 0 scalar (Point.Set NewPoint) []).2
        = ScalarMult.loop B (ScalarMult.table B q) 0 scalar (Point.Set NewPoint) ∧
      ScalarMult.calls B q scalar
        = scalar.flatMap (fun byte => [byte.val >>> 4, byte.val &&& 0b1111]) ∧
      (∀ n ∈ ScalarMult.calls B q scalar, n ≤ 15) ∧
      (ScalarMult B p q scalar).failure = none) ∧
    ((ScalarBaseMult.loopCalls B (generatorTable B Gx Gy L)
          (((generatorTable B Gx Gy L).length : Int) - 1) scalar (Point.Set NewPoint) []).2
        = ScalarBaseMult.loop B (generatorTable B Gx Gy L)
          (((generatorTable B Gx Gy L).length : Int) - 1) scalar (Point.Set NewPoint) ∧
      (∀ call ∈ ScalarBaseMult.calls B Gx Gy L scalar,
        call.2 ≤ 15 ∧ 0 ≤ call.1 ∧ call.1 ≤ 2 * (L : Int) - 1) ∧
      (scalar.length = L → (ScalarBaseMult.calls B Gx Gy L scalar).length = 2 * L) ∧
      ((ScalarBaseMult B Gx Gy L p scalar).failure = none ∨
        (ScalarBaseMult B Gx Gy L p scalar).failure = some (.err "invalid scalar length")) ∧
      ∀ msg, (ScalarBaseMult B Gx Gy L p scalar).failure ≠ some (.fatal msg)) := by
  have hcalls : ScalarMult.calls B q scalar
      = scalar.flatMap (fun byte => [byte.val >>> 4, byte.val &&& 0b1111]) := by
    unfold ScalarMult.calls
    rw [ScalarMult.loopCalls_log]
    simp
  refine ⟨⟨ScalarMult.loopCalls_result B _ scalar 0 _ [], hcalls, ?_,
    ScalarMult_failure B p q scalar⟩,
    ScalarBaseMult.baseLoopCalls_result B _ scalar _ _ [],
    ScalarBaseMult.calls_bound B Gx Gy L scalar,
    ScalarBaseMult.calls_length B Gx Gy L scalar,
    ScalarBaseMult_failure B Gx Gy L p scalar, fun msg hmsg => ?_⟩
  · rw [hcalls]
    exact window_le_fifteen scalar
  · rcases ScalarBaseMult_failure B Gx Gy L p scalar with h | h
    · rw [h] at hmsg
      cases hmsg
    · rw [h] at hmsg
      cases hmsg

/-- C23, witness: the scalar `[0xff]` on the test curve, whose two windows are both 15, with the
table indices 1 and 0. -/
theorem C23_Table_Select_in_range_witness :
    ([255] : List Byte).length = 1 ∧
      (ScalarBaseMult.calls (1 : ZMod 7) 0 1 1 [255]).length = 2 * 1 ∧
      ScalarMult.calls (1 : ZMod 7) ⟨0, 1, 1⟩ [255] = [15, 15] :=
  ⟨rfl,
    (C23_Table_Select_in_range (1 : ZMod 7) 0 1 1 NewPoint ⟨0, 1, 1⟩ [255]).2.2.2.1 rfl,
    (C23_Table_Select_in_range (1 : ZMod 7) 0 1 1 NewPoint ⟨0, 1, 1⟩ [255]).1.2.1⟩

end Nistec
